import Mathlib

/-!
Verification of the core of a Solana web3 client library
(`src/lib/index.esm.js`): the transaction wire-format codec, the message
compiler, program-address derivation, transaction signing, and the
durable-client retry / cache / subscription logic, shallowly embedded in
Lean.

Conventions of the embedding:
* Bytes are `Nat`s; buffers (`Buffer` / `Uint8Array`) are `List Nat`.
* A public key is identified with its canonical 32-byte buffer form
  (`PublicKey.toBuffer`).  `bs58` encoding of a fixed-length buffer is a
  bijection, so equality of the base-58 strings the code passes around
  coincides with equality of these byte lists, and `PublicKey.equals`
  (big-number equality of the normalized value) coincides with it as well.
* Instruction payloads are kept in decoded byte form; the JS `Message`
  object stores them base-58 encoded and decodes them again on
  serialization, another bijection.
* Fallible code returns `Except String`, the string being the JS error
  message.
* External collaborators (sha256, the ed25519 curve test, `nacl` detached
  signatures, the remote node) are abstracted as explicit function
  parameters; everything the repository itself computes is embedded
  concretely.
-/

/-- A public key, identified with its 32-byte buffer form. -/
abbrev PubKey := List Nat

/-- The message header: three byte-sized counts (`MessageHeader`). -/
structure MessageHeader where
  numRequiredSignatures : Nat
  numReadonlySignedAccounts : Nat
  numReadonlyUnsignedAccounts : Nat
deriving DecidableEq, Repr

/-- An instruction compiled against a `Message`'s account table: the index
of the program id in the table, the indices of the referenced accounts and
the opaque payload (held in decoded byte form, see the header comment). -/
structure CompiledInstruction where
  programIdIndex : Nat
  accounts : List Nat
  data : List Nat
deriving DecidableEq, Repr

/-- `Message`: header, ordered account-key table, recent-blockhash token
(decoded byte form) and compiled instruction list. -/
structure Message where
  header : MessageHeader
  accountKeys : List PubKey
  recentBlockhash : List Nat
  instructions : List CompiledInstruction
deriving DecidableEq, Repr

/-- `encodeLength`: base-128 varint, 7 low bits per byte, little-endian,
continuation flag in the high bit.  The JS loop pushes `rem_len & 0x7f`,
shifts by 7, and sets `0x80` on every byte but the last. -/
def encodeLength (len : Nat) : List Nat :=
  if h : len / 128 = 0 then [len % 128]
  else (len % 128 + 128) :: encodeLength (len / 128)
termination_by len
decreasing_by
  have h128 : 128 ≤ len := by
    by_contra hlt
    exact h (Nat.div_eq_of_lt (by omega))
  exact Nat.div_lt_self (by omega) (by omega)

/-- Loop body of `decodeLength`.  `len` is the accumulated value, `size`
the number of bytes consumed so far.  `bytes.shift()` on an exhausted
array yields `undefined`, which the JS bit operations coerce to a
terminating zero byte, hence the first pattern.  Because each iteration
contributes a disjoint 7-bit group, the JS `|=` is addition here. -/
def decodeLengthGo : List Nat → Nat → Nat → Nat × List Nat
  | [], len, _ => (len, [])
  | b :: rest, len, size =>
    let len' := len + b % 128 * 2 ^ (7 * size)
    if b / 128 % 2 = 0 then (len', rest)
    else decodeLengthGo rest len' (size + 1)

/-- `decodeLength`: consume a varint from the front of `bytes`, returning
the value and the remaining bytes. -/
def decodeLength (bytes : List Nat) : Nat × List Nat :=
  decodeLengthGo bytes 0 0

/-- Wire form of one compiled instruction inside `Message.serialize`:
`u8` program-id index, varint account count, one byte per account index
(`Buffer.from` reduces entries mod 256), varint data length, raw data. -/
def CompiledInstruction.serialize (ix : CompiledInstruction) : List Nat :=
  ix.programIdIndex % 256 :: (encodeLength ix.accounts.length
    ++ ix.accounts.map (· % 256) ++ encodeLength ix.data.length ++ ix.data)

/-- `Message.serialize`: 3 header bytes (each written as a single-byte
`Buffer`, hence mod 256), varint key count, the 32-byte keys, the 32-byte
recent-blockhash, varint instruction count, then each instruction. -/
def Message.serialize (m : Message) : List Nat :=
  m.header.numRequiredSignatures % 256 :: m.header.numReadonlySignedAccounts % 256 ::
    m.header.numReadonlyUnsignedAccounts % 256 ::
    (encodeLength m.accountKeys.length ++ m.accountKeys.flatten
      ++ m.recentBlockhash
      ++ encodeLength m.instructions.length
      ++ (m.instructions.map CompiledInstruction.serialize).flatten)

/-- The account-key reading loop of `Message.from`: slice `PUBKEY_LENGTH`
(32) bytes per key. -/
def readKeys : Nat → List Nat → List PubKey × List Nat
  | 0, bytes => ([], bytes)
  | n + 1, bytes =>
    let key := bytes.take 32
    let rec' := readKeys n (bytes.drop 32)
    (key :: rec'.1, rec'.2)

/-- The instruction reading loop of `Message.from`: `u8` program-id index,
varint account count, that many index bytes, varint data length, that many
data bytes. -/
def readInstructions : Nat → List Nat → List CompiledInstruction × List Nat
  | 0, bytes => ([], bytes)
  | n + 1, bytes =>
    let programIdIndex := bytes.headD 0
    let r1 := bytes.tail
    let acc := decodeLength r1
    let accounts := acc.2.take acc.1
    let r2 := acc.2.drop acc.1
    let dat := decodeLength r2
    let data := dat.2.take dat.1
    let r3 := dat.2.drop dat.1
    let rest := readInstructions n r3
    (⟨programIdIndex, accounts, data⟩ :: rest.1, rest.2)

/-- `Message.from` (a Lean keyword, hence `fromBytes`): decode a compiled
message.  The three header bytes are shifted off, then keys, blockhash and
instructions are sliced out; key and data buffers are re-encoded to
base-58 strings in JS, which we keep in byte form. -/
def Message.fromBytes (buffer : List Nat) : Message :=
  let h1 := buffer.headD 0
  let r1 := buffer.tail
  let h2 := r1.headD 0
  let r2 := r1.tail
  let h3 := r2.headD 0
  let r3 := r2.tail
  let acc := decodeLength r3
  let keys := readKeys acc.1 acc.2
  let recentBlockhash := keys.2.take 32
  let r4 := keys.2.drop 32
  let icount := decodeLength r4
  let ixs := readInstructions icount.1 icount.2
  ⟨⟨h1, h2, h3⟩, keys.1, recentBlockhash, ixs.1⟩

/-- Well-formedness of a `Message` as produced by compilation: byte-sized
header counts, 32-byte keys and blockhash, byte-sized program-id and
account indices.  (`BufferLayout.u8.encode` rejects larger values and
`Buffer.from` truncates them, so serialization only represents such
messages faithfully.) -/
def Message.WF (m : Message) : Prop :=
  m.header.numRequiredSignatures < 256 ∧
  m.header.numReadonlySignedAccounts < 256 ∧
  m.header.numReadonlyUnsignedAccounts < 256 ∧
  (∀ k ∈ m.accountKeys, k.length = 32) ∧
  m.recentBlockhash.length = 32 ∧
  ∀ ix ∈ m.instructions, ix.programIdIndex < 256 ∧ ∀ a ∈ ix.accounts, a < 256

instance (m : Message) : Decidable m.WF := by
  unfold Message.WF; infer_instance

theorem decodeLengthGo_encodeLength (n : Nat) :
    ∀ (rest : List Nat) (acc size : Nat),
      decodeLengthGo (encodeLength n ++ rest) acc size
        = (acc + n * 2 ^ (7 * size), rest) := by
  induction n using Nat.strong_induction_on with
  | _ n ih =>
    intro rest acc size
    by_cases h : n / 128 = 0
    · have hn : n < 128 := by omega
      rw [encodeLength, dif_pos h]
      simp [decodeLengthGo, Nat.mod_eq_of_lt hn, Nat.div_eq_of_lt hn]
    · have h128 : 128 ≤ n := by
        by_contra hlt
        exact h (Nat.div_eq_of_lt (by omega))
      rw [encodeLength, dif_neg h]
      simp only [List.cons_append, decodeLengthGo]
      rw [if_neg (by omega)]
      simp only [List.append_eq]
      rw [ih (n / 128) (Nat.div_lt_self (by omega) (by omega)) rest
        (acc + (n % 128 + 128) % 128 * 2 ^ (7 * size)) (size + 1)]
      have hmod : (n % 128 + 128) % 128 = n % 128 := by omega
      rw [hmod]
      congr 1
      have hpow : 2 ^ (7 * (size + 1)) = 2 ^ (7 * size) * 128 := by
        rw [Nat.mul_succ, pow_add]
        norm_num
      rw [hpow]
      calc acc + n % 128 * 2 ^ (7 * size) + n / 128 * (2 ^ (7 * size) * 128)
          = acc + (n % 128 + 128 * (n / 128)) * 2 ^ (7 * size) := by ring
        _ = acc + n * 2 ^ (7 * size) := by rw [Nat.mod_add_div]

theorem decodeLength_encodeLength (n : Nat) (rest : List Nat) :
    decodeLength (encodeLength n ++ rest) = (n, rest) := by
  unfold decodeLength
  rw [decodeLengthGo_encodeLength]
  simp

theorem readKeys_flatten (keys : List PubKey) (rest : List Nat)
    (h : ∀ k ∈ keys, k.length = 32) :
    readKeys keys.length (keys.flatten ++ rest) = (keys, rest) := by
  induction keys with
  | nil => simp [readKeys]
  | cons k ks ih =>
    have hk : k.length = 32 := h k (by simp)
    simp only [List.length_cons, List.flatten_cons, List.append_assoc, readKeys]
    rw [List.take_left' hk, List.drop_left' hk]
    rw [ih (fun x hx => h x (List.mem_cons_of_mem _ hx))]

theorem readInstructions_flatten (ixs : List CompiledInstruction) (rest : List Nat)
    (h : ∀ ix ∈ ixs, ix.programIdIndex < 256 ∧ ∀ a ∈ ix.accounts, a < 256) :
    readInstructions ixs.length ((ixs.map CompiledInstruction.serialize).flatten ++ rest)
      = (ixs, rest) := by
  induction ixs with
  | nil => simp [readInstructions]
  | cons ix ixs ih =>
    obtain ⟨hpid, hacc⟩ := h ix (by simp)
    have hmap : ix.accounts.map (· % 256) = ix.accounts := by
      conv_rhs => rw [← List.map_id ix.accounts]
      exact List.map_congr_left fun a ha => Nat.mod_eq_of_lt (hacc a ha)
    have hlenmap : (ix.accounts.map (· % 256)).length = ix.accounts.length :=
      List.length_map _ _
    simp only [List.length_cons, List.map_cons, List.flatten_cons,
      readInstructions, CompiledInstruction.serialize, List.cons_append,
      List.headD_cons, List.tail_cons, List.append_assoc]
    rw [decodeLength_encodeLength]
    simp only
    rw [List.take_left' hlenmap, List.drop_left' hlenmap]
    rw [decodeLength_encodeLength]
    simp only
    rw [List.take_left' rfl, List.drop_left' rfl]
    rw [ih (fun i hi => h i (List.mem_cons_of_mem _ hi))]
    simp [Nat.mod_eq_of_lt hpid, hmap]

/-- **C1**: decoding reverses encoding.  For every well-formed compiled
`Message` `m` (byte-sized header counts and indices, 32-byte keys and
blockhash — exactly what compilation produces), `Message.from(m.serialize())`
reconstructs a `Message` with the same header counts, the same account-key
table, the same recent-blockhash token and the same instruction list. -/
theorem message_serialize_roundtrip (m : Message) (h : m.WF) :
    Message.fromBytes m.serialize = m := by
  obtain ⟨⟨c1, c2, c3⟩, keys, bh, ixs⟩ := m
  obtain ⟨h1, h2, h3, hkeys, hbh, hixs⟩ := h
  simp only [Message.WF] at *
  unfold Message.serialize Message.fromBytes
  simp only [List.headD_cons, List.tail_cons, List.append_assoc]
  rw [decodeLength_encodeLength]
  simp only
  rw [readKeys_flatten _ _ hkeys]
  simp only
  rw [List.take_left' hbh, List.drop_left' hbh]
  rw [decodeLength_encodeLength]
  simp only
  rw [show (List.map CompiledInstruction.serialize ixs).flatten
        = (List.map CompiledInstruction.serialize ixs).flatten ++ [] by simp]
  rw [readInstructions_flatten _ _ hixs]
  simp [Nat.mod_eq_of_lt, h1, h2, h3]

/-- Concrete witness for C1. -/
def c1ExampleMessage : Message :=
  { header := ⟨2, 0, 1⟩
    accountKeys :=
      [List.replicate 32 1, List.replicate 32 2, List.replicate 32 3]
    recentBlockhash := List.replicate 32 9
    instructions := [⟨2, [0, 1], [17, 255, 0]⟩] }

theorem c1_witness :
    Message.WF c1ExampleMessage ∧
      Message.fromBytes c1ExampleMessage.serialize = c1ExampleMessage :=
  ⟨by decide, message_serialize_roundtrip c1ExampleMessage (by decide)⟩

/-! ## Program address derivation (`PublicKey.createProgramAddress`,
`PublicKey.findProgramAddress`) -/

/-- Errors of the derivation functions: `seedTooLong` is the thrown
`TypeError('Max seed length exceeded')`, `invalidSeeds` the
`Error('Invalid seeds, address must fall off the curve')`, and
`exhaustedNonce` the `Error('Unable to find a viable program address nonce')`. -/
inductive PdaError where
  | seedTooLong
  | invalidSeeds
  | exhaustedNonce
deriving DecidableEq, Repr

/-- `MAX_SEED_LENGTH`. -/
def MAX_SEED_LENGTH : Nat := 32

/-- The ASCII bytes of the domain-separation tag `'ProgramDerivedAddress'`. -/
def pdaTag : List Nat := "ProgramDerivedAddress".toList.map Char.toNat

/-- `PublicKey.createProgramAddress`, parameterized by the external
collaborators `sha256` (the `crypto-hash` package) and `is_on_curve`
(tweetnacl field arithmetic).  Each seed must be at most `MAX_SEED_LENGTH`
bytes — the JS `forEach` throws at the first offender, which is the same
observable error as this `any` test.  The seeds, the program id and the
tag are concatenated and hashed; converting the 32-byte digest through
`BN(hash, 16).toArray(undefined, 32)` is the identity on 32 bytes, so the
digest itself is the candidate address; an on-curve digest is rejected. -/
def createProgramAddress (sha256 : List Nat → List Nat)
    (isOnCurve : List Nat → Bool)
    (seeds : List (List Nat)) (programId : PubKey) : Except PdaError PubKey :=
  if seeds.any (fun s => MAX_SEED_LENGTH < s.length) then .error .seedTooLong
  else
    let publicKeyBytes := sha256 (seeds.flatten ++ programId ++ pdaTag)
    if isOnCurve publicKeyBytes then .error .invalidSeeds
    else .ok publicKeyBytes

/-- The `while (nonce != 0)` search loop of `PublicKey.findProgramAddress`,
on the current nonce value.  A `TypeError` is re-thrown; any other failure
decrements the nonce and continues; reaching `nonce = 0` exits the loop
into the exhausted-nonce error. -/
def findProgramAddressGo (sha256 : List Nat → List Nat)
    (isOnCurve : List Nat → Bool)
    (seeds : List (List Nat)) (programId : PubKey) :
    Nat → Except PdaError (PubKey × Nat)
  | 0 => .error .exhaustedNonce
  | n + 1 =>
    match createProgramAddress sha256 isOnCurve (seeds ++ [[n + 1]]) programId with
    | .ok address => .ok (address, n + 1)
    | .error .seedTooLong => .error .seedTooLong
    | .error _ => findProgramAddressGo sha256 isOnCurve seeds programId n

/-- `PublicKey.findProgramAddress`: search from nonce 255 downward. -/
def findProgramAddress (sha256 : List Nat → List Nat)
    (isOnCurve : List Nat → Bool)
    (seeds : List (List Nat)) (programId : PubKey) :
    Except PdaError (PubKey × Nat) :=
  findProgramAddressGo sha256 isOnCurve seeds programId 255

instance {ε α : Type} [DecidableEq ε] [DecidableEq α] : DecidableEq (Except ε α) := fun a b =>
  match a, b with
  | .ok x, .ok y => if h : x = y then .isTrue (by rw [h]) else .isFalse (by simp [h])
  | .error x, .error y => if h : x = y then .isTrue (by rw [h]) else .isFalse (by simp [h])
  | .ok _, .error _ => .isFalse (by simp)
  | .error _, .ok _ => .isFalse (by simp)

theorem createProgramAddress_ne_exhausted (sha256 : List Nat → List Nat)
    (isOnCurve : List Nat → Bool) (seeds : List (List Nat)) (programId : PubKey) :
    createProgramAddress sha256 isOnCurve seeds programId
      ≠ .error .exhaustedNonce := by
  simp only [createProgramAddress]
  split
  · simp
  · split <;> simp

theorem findProgramAddressGo_ok (sha256 : List Nat → List Nat)
    (isOnCurve : List Nat → Bool) (seeds : List (List Nat)) (programId : PubKey)
    (N : Nat) :
    ∀ a n, findProgramAddressGo sha256 isOnCurve seeds programId N = .ok (a, n) →
      1 ≤ n ∧ n ≤ N ∧
      createProgramAddress sha256 isOnCurve (seeds ++ [[n]]) programId = .ok a ∧
      ∀ m, n < m → m ≤ N →
        createProgramAddress sha256 isOnCurve (seeds ++ [[m]]) programId
          = .error .invalidSeeds := by
  induction N with
  | zero => intro a n h; simp [findProgramAddressGo] at h
  | succ N ih =>
    intro a n h
    unfold findProgramAddressGo at h
    cases hc : createProgramAddress sha256 isOnCurve (seeds ++ [[N + 1]]) programId with
    | ok address =>
      rw [hc] at h
      replace h : (Except.ok (address, N + 1) : Except PdaError (PubKey × Nat))
          = .ok (a, n) := h
      simp only [Except.ok.injEq, Prod.mk.injEq] at h
      obtain ⟨rfl, rfl⟩ := h
      exact ⟨by omega, by omega, hc, fun m hm hm' => absurd hm (by omega)⟩
    | error e =>
      rw [hc] at h
      cases e with
      | seedTooLong =>
        replace h : (Except.error PdaError.seedTooLong : Except PdaError (PubKey × Nat))
            = .ok (a, n) := h
        simp at h
      | invalidSeeds =>
        replace h : findProgramAddressGo sha256 isOnCurve seeds programId N
            = .ok (a, n) := h
        obtain ⟨hn1, hnN, hcreate, hrest⟩ := ih a n h
        refine ⟨hn1, by omega, hcreate, ?_⟩
        intro m hm hm'
        rcases Nat.lt_or_ge m (N + 1) with hlt | hge
        · exact hrest m hm (by omega)
        · have hmN : m = N + 1 := by omega
          rw [hmN]
          exact hc
      | exhaustedNonce =>
        exact absurd hc (createProgramAddress_ne_exhausted _ _ _ _)

theorem findProgramAddressGo_exhausted (sha256 : List Nat → List Nat)
    (isOnCurve : List Nat → Bool) (seeds : List (List Nat)) (programId : PubKey)
    (N : Nat)
    (h : ∀ m, 1 ≤ m → m ≤ N →
      createProgramAddress sha256 isOnCurve (seeds ++ [[m]]) programId
        = .error .invalidSeeds) :
    findProgramAddressGo sha256 isOnCurve seeds programId N
      = .error .exhaustedNonce := by
  induction N with
  | zero => rfl
  | succ N ih =>
    unfold findProgramAddressGo
    rw [h (N + 1) (by omega) (by omega)]
    exact ih fun m h1 hN => h m h1 (by omega)

/-- **C5**: `findProgramAddress` tries nonces from 255 downward: a success
`(a, n)` means `1 ≤ n ≤ 255`, `createProgramAddress` succeeds on the seeds
plus the one-byte nonce `n`, and every nonce above `n` up to 255 failed the
off-curve test; if every nonce in `[1, 255]` fails, the search exhausts
with the unable-to-find error. -/
theorem findProgramAddress_spec (sha256 : List Nat → List Nat)
    (isOnCurve : List Nat → Bool) (seeds : List (List Nat)) (programId : PubKey) :
    (∀ a n, findProgramAddress sha256 isOnCurve seeds programId = .ok (a, n) →
      1 ≤ n ∧ n ≤ 255 ∧
      createProgramAddress sha256 isOnCurve (seeds ++ [[n]]) programId = .ok a ∧
      ∀ m, n < m → m ≤ 255 →
        createProgramAddress sha256 isOnCurve (seeds ++ [[m]]) programId
          = .error .invalidSeeds) ∧
    ((∀ m, 1 ≤ m → m ≤ 255 →
        createProgramAddress sha256 isOnCurve (seeds ++ [[m]]) programId
          = .error .invalidSeeds) →
      findProgramAddress sha256 isOnCurve seeds programId
        = .error .exhaustedNonce) :=
  ⟨fun a n h => findProgramAddressGo_ok sha256 isOnCurve seeds programId 255 a n h,
   fun h => findProgramAddressGo_exhausted sha256 isOnCurve seeds programId 255 h⟩

/-- Example external collaborators for concrete runs: a stand-in digest
function and constant curve tests. -/
def exSha256 (buffer : List Nat) : List Nat :=
  List.replicate 31 0 ++ [buffer.length % 256]

def exOffCurve (_ : List Nat) : Bool := false

def exOnCurve (_ : List Nat) : Bool := true

def exProgramId : PubKey := List.replicate 32 3

def exAddr : PubKey := exSha256 ([1, 2, 255] ++ exProgramId ++ pdaTag)

theorem c5_witness :
    1 ≤ 255 ∧ 255 ≤ 255 ∧
      createProgramAddress exSha256 exOffCurve ([[1, 2]] ++ [[255]]) exProgramId
        = .ok exAddr ∧
      ∀ m, 255 < m → m ≤ 255 →
        createProgramAddress exSha256 exOffCurve ([[1, 2]] ++ [[m]]) exProgramId
          = .error .invalidSeeds :=
  (findProgramAddress_spec exSha256 exOffCurve [[1, 2]] exProgramId).1
    exAddr 255 (by rfl)

/-- **C6**: `createProgramAddress` rejects any seed longer than 32 bytes
with the seed-too-long `TypeError`; with all seeds in bounds it fails with
the invalid-seeds error exactly when the digest of
`seeds... ‖ programId ‖ "ProgramDerivedAddress"` is on the ed25519 curve;
and any successfully returned address is off-curve. -/
theorem createProgramAddress_spec (sha256 : List Nat → List Nat)
    (isOnCurve : List Nat → Bool) (seeds : List (List Nat)) (programId : PubKey) :
    ((∃ s ∈ seeds, 32 < s.length) →
      createProgramAddress sha256 isOnCurve seeds programId
        = .error .seedTooLong) ∧
    ((∀ s ∈ seeds, s.length ≤ 32) →
      (createProgramAddress sha256 isOnCurve seeds programId
          = .error .invalidSeeds
        ↔ isOnCurve (sha256 (seeds.flatten ++ programId ++ pdaTag)) = true)) ∧
    (∀ a, createProgramAddress sha256 isOnCurve seeds programId = .ok a →
      isOnCurve a = false) := by
  refine ⟨?_, ?_, ?_⟩
  · rintro ⟨s, hs, hlen⟩
    have hdec : decide (MAX_SEED_LENGTH < s.length) = true := by
      simp only [MAX_SEED_LENGTH, decide_eq_true_eq]
      omega
    have hany : (seeds.any fun s => decide (MAX_SEED_LENGTH < s.length)) = true :=
      List.any_eq_true.mpr ⟨s, hs, hdec⟩
    simp [createProgramAddress, hany]
  · intro hall
    have hany : (seeds.any fun s => decide (MAX_SEED_LENGTH < s.length)) = false := by
      rw [List.any_eq_false]
      intro s hs
      simp only [MAX_SEED_LENGTH, decide_eq_true_eq, not_lt]
      exact hall s hs
    simp only [createProgramAddress, hany, Bool.false_eq_true, if_false]
    by_cases hc : isOnCurve (sha256 (seeds.flatten ++ programId ++ pdaTag)) = true
    · simp [hc]
    · simp [hc]
  · intro a
    simp only [createProgramAddress]
    split
    · intro h; exact absurd h (by simp)
    · split
      · intro h; exact absurd h (by simp)
      · next hc =>
        intro h
        have ha := Except.ok.inj h
        rw [← ha]
        simpa using hc

theorem c6_witness :
    ((∃ s ∈ [List.replicate 33 0], 32 < s.length) →
      createProgramAddress exSha256 exOnCurve [List.replicate 33 0] exProgramId
        = .error .seedTooLong) ∧
    createProgramAddress exSha256 exOnCurve [List.replicate 33 0] exProgramId
      = .error .seedTooLong ∧
    createProgramAddress exSha256 exOnCurve [[1]] exProgramId
      = .error .invalidSeeds ∧
    exOffCurve (exSha256 ([1] ++ exProgramId ++ pdaTag)) = false := by
  have h1 := (createProgramAddress_spec exSha256 exOnCurve [List.replicate 33 0]
    exProgramId).1
  have h2 := (createProgramAddress_spec exSha256 exOnCurve [[1]] exProgramId).2.1
    (by decide)
  have h3 := (createProgramAddress_spec exSha256 exOffCurve [[1]] exProgramId).2.2
    (exSha256 ([1] ++ exProgramId ++ pdaTag)) (by rfl)
  exact ⟨h1, h1 ⟨List.replicate 33 0, by decide⟩, h2.mpr rfl, h3⟩

/-! ## The message compiler (`Transaction.compileMessage`) -/

/-- `AccountMeta`: (public key, is-signer flag, is-writable flag). -/
structure AccountMeta where
  pubkey : PubKey
  isSigner : Bool
  isWritable : Bool
deriving DecidableEq, Repr

/-- `TransactionInstruction`: ordered account metas, program id, payload. -/
structure TransactionInstruction where
  keys : List AccountMeta
  programId : PubKey
  data : List Nat
deriving DecidableEq, Repr

/-- One entry of `Transaction.signatures`.  The public key is optional
because the JS object field can be absent: `compileMessage`'s fee-payer
fallback tests `this.signatures[0].publicKey` for truthiness, and every
other dereference of an absent key throws a `TypeError`, modelled as an
error result. -/
structure SignaturePubkeyPair where
  signature : Option (List Nat)
  publicKey : Option PubKey
deriving DecidableEq, Repr

/-- `Transaction`: signature pairs, optional fee payer, optional recent
blockhash and the instruction list.  The durable-nonce prelude of
`compileMessage` only rewrites these inputs (it prepends the nonce-advance
instruction and overrides the blockhash) before the pipeline modelled
below, so the pipeline is entered with an arbitrary instruction list
either way. -/
structure Transaction where
  signatures : List SignaturePubkeyPair
  feePayer : Option PubKey
  recentBlockhash : Option (List Nat)
  instructions : List TransactionInstruction
deriving DecidableEq, Repr

/-- The fee-payer resolution at the head of `compileMessage`: the explicit
`feePayer` if set, else the public key of the first signature pair if that
exists and is truthy, else the fee-payer-required error. -/
def resolveFeePayer (tx : Transaction) : Except String PubKey :=
  match tx.feePayer with
  | some fp => .ok fp
  | none =>
    match tx.signatures with
    | sig :: _ =>
      match sig.publicKey with
      | some pk => .ok pk
      | none => .error "Transaction fee payer required"
    | [] => .error "Transaction fee payer required"

/-- First-seen deduplication, modelling the growth of the `programIds`
array: a `push` guarded by `!programIds.includes(programId)`. -/
def dedupFirstSeen (l : List PubKey) : List PubKey :=
  l.foldl (fun programIds p => if p ∈ programIds then programIds else programIds ++ [p]) []

/-- Step 1 of `compileMessage`: every account meta referenced by any
instruction, in instruction order, followed by one non-signer/non-writable
meta per distinct program id in first-seen order. -/
def collectMetas (ixs : List TransactionInstruction) : List AccountMeta :=
  ixs.flatMap (fun ix => ix.keys)
    ++ (dedupFirstSeen (ixs.map (fun ix => ix.programId))).map
        (fun programId => ⟨programId, false, false⟩)

/-- The comparator of the `accountMetas.sort` call as a boolean
less-or-equal: signer before non-signer, then writable before read-only,
ties equal.  `Array.prototype.sort` is stable, so the stable `mergeSort`
models it. -/
def metaLe (x y : AccountMeta) : Bool :=
  if x.isSigner ≠ y.isSigner then x.isSigner
  else if x.isWritable ≠ y.isWritable then x.isWritable
  else true

/-- One step of the duplicate-culling `forEach`: find the first earlier
meta with the same address; if found, OR this meta's writable flag into it
(the signer flag is not merged by this loop), else append.  The inner
`match` on `[i]?` is only for totality: `findIdx?` returning `some i`
guarantees the index is in bounds. -/
def dedupStep (uniqueMetas : List AccountMeta) (m : AccountMeta) : List AccountMeta :=
  match uniqueMetas.findIdx? (fun x => x.pubkey = m.pubkey) with
  | some i =>
    match uniqueMetas[i]? with
    | some u => uniqueMetas.set i { u with isWritable := u.isWritable || m.isWritable }
    | none => uniqueMetas
  | none => uniqueMetas ++ [m]

/-- Steps 2–3 of `compileMessage`: stable sort, then cull duplicates. -/
def uniqueMetasOf (ixs : List TransactionInstruction) : List AccountMeta :=
  (((collectMetas ixs).mergeSort metaLe).foldl dedupStep [])

/-- Step 4: move the fee payer to the front, forcing signer and writable;
splice it out first if already present, else insert synthetically. -/
def moveFeePayer (feePayer : PubKey) (uniqueMetas : List AccountMeta) :
    List AccountMeta :=
  match uniqueMetas.findIdx? (fun x => x.pubkey = feePayer) with
  | some i =>
    match uniqueMetas[i]? with
    | some payerMeta =>
      { payerMeta with isSigner := true, isWritable := true }
        :: uniqueMetas.eraseIdx i
    | none => uniqueMetas
  | none => ⟨feePayer, true, true⟩ :: uniqueMetas

/-- Step 5: the unknown-signer loop over the existing signatures.  A key
found as a non-signer is flipped to signer (the deprecated
unnecessary-signature path, which also warns); a key not in the table
raises the unknown-signer error; a pair without a public key makes the
`equals` call inside `findIndex` throw a `TypeError`. -/
def applySignatureFlip (uniqueMetas : List AccountMeta) :
    List SignaturePubkeyPair → Except String (List AccountMeta)
  | [] => .ok uniqueMetas
  | sig :: rest =>
    match sig.publicKey with
    | none => .error "TypeError"
    | some pk =>
      match uniqueMetas.findIdx? (fun x => x.pubkey = pk) with
      | some i =>
        match uniqueMetas[i]? with
        | some u =>
          if u.isSigner then applySignatureFlip uniqueMetas rest
          else applySignatureFlip (uniqueMetas.set i { u with isSigner := true }) rest
        | none => applySignatureFlip uniqueMetas rest
      | none => .error "unknown signer"

/-- Step 6: the single pass that pushes each key into `signedKeys` or
`unsignedKeys` and counts the header values, in table order. -/
def splitKeysAndCounts (uniqueMetas : List AccountMeta) :
    List PubKey × List PubKey × Nat × Nat × Nat :=
  uniqueMetas.foldl
    (fun st meta =>
      if meta.isSigner then
        (st.1 ++ [meta.pubkey], st.2.1, st.2.2.1 + 1,
          if meta.isWritable then st.2.2.2.1 else st.2.2.2.1 + 1,
          st.2.2.2.2)
      else
        (st.1, st.2.1 ++ [meta.pubkey], st.2.2.1,
          st.2.2.2.1,
          if meta.isWritable then st.2.2.2.2 else st.2.2.2.2 + 1))
    ([], [], 0, 0, 0)

/-- `accountKeys.indexOf` followed by the `assert(index >= 0)`: the JS
`indexOf` returns -1 on a missing key and the assert throws. -/
def indexOfKey (accountKeys : List PubKey) (k : PubKey) : Except String Nat :=
  match accountKeys.findIdx? (fun x => x = k) with
  | some i => .ok i
  | none => .error "Assertion failed"

/-- Step 7 for one instruction: re-index the program id and each account
meta against the final key table. -/
def compileInstruction (accountKeys : List PubKey) (ix : TransactionInstruction) :
    Except String CompiledInstruction := do
  let programIdIndex ← indexOfKey accountKeys ix.programId
  let accounts ← ix.keys.mapM (fun meta => indexOfKey accountKeys meta.pubkey)
  return ⟨programIdIndex, accounts, ix.data⟩

/-- Step 7: all instructions. -/
def compileInstructions (accountKeys : List PubKey)
    (ixs : List TransactionInstruction) : Except String (List CompiledInstruction) :=
  ixs.mapM (compileInstruction accountKeys)

/-- Steps 1–5 packaged: the final meta table `compileMessage` partitions
and counts (fee payer resolved, metas collected, sorted, deduplicated,
fee payer moved to front, signature check applied). -/
def finalMetas (tx : Transaction) : Except String (List AccountMeta) :=
  match resolveFeePayer tx with
  | .error e => .error e
  | .ok feePayer =>
    applySignatureFlip (moveFeePayer feePayer (uniqueMetasOf tx.instructions))
      tx.signatures

/-- `Transaction.compileMessage` (after the durable-nonce input rewrite,
see `Transaction`): recent-blockhash check, then the meta pipeline, then
partition/counts and instruction re-indexing.  The empty-instruction case
only warns, and a missing `programId` cannot arise in the typed model. -/
def Transaction.compileMessage (tx : Transaction) : Except String Message :=
  match tx.recentBlockhash with
  | none => .error "Transaction recentBlockhash required"
  | some recentBlockhash =>
    match finalMetas tx with
    | .error e => .error e
    | .ok uniqueMetas =>
      let st := splitKeysAndCounts uniqueMetas
      let accountKeys := st.1 ++ st.2.1
      match compileInstructions accountKeys tx.instructions with
      | .error e => .error e
      | .ok instructions =>
        .ok ⟨⟨st.2.2.1, st.2.2.2.1, st.2.2.2.2⟩, accountKeys,
          recentBlockhash, instructions⟩

/-- `Message.isAccountWritable`.  JS number subtraction can go negative
where `Nat` subtraction truncates at 0, but both make the comparisons
below false in exactly the same cases. -/
def Message.isAccountWritable (m : Message) (index : Nat) : Bool :=
  decide (index < m.header.numRequiredSignatures - m.header.numReadonlySignedAccounts)
    || (decide (m.header.numRequiredSignatures ≤ index)
        && decide (index < m.accountKeys.length - m.header.numReadonlyUnsignedAccounts))

/-! ### Characterizing the duplicate cull -/

/-- Proof-side recursive characterization of the duplicate cull: keep the
first occurrence of each address, its writable flag OR-ed over all
occurrences. -/
def dedupSpec : List AccountMeta → List AccountMeta
  | [] => []
  | m :: rest =>
    { m with isWritable :=
        m.isWritable || rest.any (fun x => decide (x.pubkey = m.pubkey) && x.isWritable) }
      :: dedupSpec (rest.filter (fun x => ¬x.pubkey = m.pubkey))
termination_by l => l.length
decreasing_by
  simp only [List.length_cons]
  exact Nat.lt_succ_of_le (List.length_filter_le _ _)

theorem dedupSpec_cons (m : AccountMeta) (rest : List AccountMeta) :
    dedupSpec (m :: rest)
      = { m with isWritable := m.isWritable
            || rest.any (fun x => decide (x.pubkey = m.pubkey) && x.isWritable) }
        :: dedupSpec (rest.filter (fun x => ¬x.pubkey = m.pubkey)) := by
  rw [dedupSpec]

theorem findIdx?_spec {α : Type} (p : α → Bool) (l : List α) :
    ∀ i, l.findIdx? p = some i → ∃ u, l[i]? = some u ∧ p u = true := by
  induction l with
  | nil => intro i h; simp [List.findIdx?] at h
  | cons a rest ih =>
    intro i h
    rw [List.findIdx?_cons] at h
    by_cases hpa : p a = true
    · rw [if_pos hpa] at h
      have hi : i = 0 := by
        have := Option.some.inj h
        omega
      subst hi
      exact ⟨a, by simp, hpa⟩
    · rw [if_neg hpa, List.findIdx?_succ] at h
      cases hfi : rest.findIdx? p with
      | none => rw [hfi] at h; simp at h
      | some j =>
        rw [hfi] at h
        simp only [Option.map_some'] at h
        have hi : i = j + 1 := by
          have := Option.some.inj h
          omega
        subst hi
        obtain ⟨u, hu, hpu⟩ := ih j hfi
        exact ⟨u, by simpa using hu, hpu⟩

theorem dedupStep_not_mem (acc : List AccountMeta) (m : AccountMeta)
    (h : ∀ a ∈ acc, ¬a.pubkey = m.pubkey) :
    dedupStep acc m = acc ++ [m] := by
  unfold dedupStep
  have hnone : acc.findIdx? (fun x => decide (x.pubkey = m.pubkey)) = none :=
    List.findIdx?_eq_none_iff.mpr (fun x hx => by simp [h x hx])
  rw [hnone]

theorem dedupStep_mem (acc : List AccountMeta) (m : AccountMeta)
    (hnd : (acc.map (fun a => a.pubkey)).Nodup)
    (hmem : m.pubkey ∈ acc.map (fun a => a.pubkey)) :
    dedupStep acc m
      = acc.map (fun a => if a.pubkey = m.pubkey
          then { a with isWritable := a.isWritable || m.isWritable } else a) := by
  induction acc with
  | nil => simp at hmem
  | cons a rest ih =>
    simp only [List.map_cons, List.nodup_cons] at hnd
    obtain ⟨ha_nin, hnd'⟩ := hnd
    by_cases hpk : a.pubkey = m.pubkey
    · unfold dedupStep
      rw [List.findIdx?_cons, if_pos (by simp [hpk])]
      simp only [List.getElem?_cons_zero, List.set_cons_zero, List.map_cons,
        if_pos hpk]
      have hrest : rest.map (fun x =>
          if x.pubkey = m.pubkey
          then { x with isWritable := x.isWritable || m.isWritable } else x) = rest := by
        have : ∀ x ∈ rest, (if x.pubkey = m.pubkey
            then { x with isWritable := x.isWritable || m.isWritable } else x) = x := by
          intro x hx
          have : ¬x.pubkey = m.pubkey := by
            intro hc
            exact ha_nin (by
              rw [hpk, ← hc]
              exact List.mem_map_of_mem _ hx)
          rw [if_neg this]
        calc rest.map _ = rest.map id := List.map_congr_left this
          _ = rest := List.map_id rest
      rw [hrest]
    · have hmem' : m.pubkey ∈ rest.map (fun a => a.pubkey) := by
        rw [List.map_cons] at hmem
        rcases List.mem_cons.mp hmem with h | h
        · exact absurd h.symm hpk
        · exact h
      unfold dedupStep
      rw [List.findIdx?_cons, if_neg (by simp [hpk]), List.findIdx?_succ]
      cases hfi : rest.findIdx? (fun x => decide (x.pubkey = m.pubkey)) with
      | none =>
        obtain ⟨x, hx, hxpk⟩ := List.mem_map.mp hmem'
        have := List.findIdx?_eq_none_iff.mp hfi x hx
        simp [hxpk] at this
      | some i =>
        simp only [Option.map_some']
        obtain ⟨u, hu, hpu⟩ := findIdx?_spec _ rest i hfi
        simp only [List.getElem?_cons_succ, hu, List.set_cons_succ, List.map_cons,
          if_neg hpk]
        have := ih hnd' hmem'
        unfold dedupStep at this
        rw [hfi] at this
        simp only [hu] at this
        rw [this]

theorem AccountMeta.update_self (a : AccountMeta) :
    { a with isWritable := a.isWritable } = a := rfl

theorem any_filter_of_imp {α : Type} (l : List α) (q p : α → Bool)
    (h : ∀ x, p x = true → q x = true) :
    (l.filter q).any p = l.any p := by
  induction l with
  | nil => rfl
  | cons a rest ih =>
    by_cases hq : q a = true
    · simp [List.filter_cons, hq, ih]
    · have hpa : p a = false := by
        cases hp : p a
        · rfl
        · exact absurd (h a hp) hq
      simp [List.filter_cons, hq, hpa, ih]

theorem foldl_dedupStep_eq (l : List AccountMeta) :
    ∀ acc : List AccountMeta, (acc.map (fun a => a.pubkey)).Nodup →
      l.foldl dedupStep acc
        = acc.map (fun a =>
            { a with isWritable := a.isWritable
                || l.any (fun x => decide (x.pubkey = a.pubkey) && x.isWritable) })
          ++ dedupSpec (l.filter (fun x =>
              ¬x.pubkey ∈ acc.map (fun a => a.pubkey))) := by
  induction l with
  | nil =>
    intro acc _
    simp [dedupSpec, AccountMeta.update_self]
  | cons m l ih =>
    intro acc hnd
    simp only [List.foldl_cons]
    by_cases hmem : m.pubkey ∈ acc.map (fun a => a.pubkey)
    · rw [dedupStep_mem acc m hnd hmem]
      have hpk_pres : ∀ a : AccountMeta,
          (if a.pubkey = m.pubkey
            then { a with isWritable := a.isWritable || m.isWritable } else a).pubkey
            = a.pubkey := by
        intro a
        by_cases h : a.pubkey = m.pubkey <;> simp [h]
      have hkeys : (acc.map (fun a => if a.pubkey = m.pubkey
            then { a with isWritable := a.isWritable || m.isWritable } else a)).map
            (fun a => a.pubkey) = acc.map (fun a => a.pubkey) := by
        rw [List.map_map]
        exact List.map_congr_left (fun a _ => hpk_pres a)
      rw [ih _ (by rw [hkeys]; exact hnd)]
      congr 1
      · rw [List.map_map]
        apply List.map_congr_left
        intro a _
        by_cases hpk : a.pubkey = m.pubkey
        · have hd : (decide (m.pubkey = a.pubkey)) = true := by
            rw [hpk]
            simp
          simp only [Function.comp_apply, if_pos hpk, List.any_cons, hd,
            Bool.true_and, Bool.or_assoc]
        · have hd : (decide (m.pubkey = a.pubkey)) = false := by
            simp only [decide_eq_false_iff_not]
            exact fun hc => hpk hc.symm
          simp only [Function.comp_apply, if_neg hpk, List.any_cons, hd,
            Bool.false_and, Bool.false_or]
      · rw [hkeys]
        have : (m :: l).filter (fun x => ¬x.pubkey ∈ acc.map (fun a => a.pubkey))
            = l.filter (fun x => ¬x.pubkey ∈ acc.map (fun a => a.pubkey)) := by
          rw [List.filter_cons]
          simp [hmem]
        rw [this]
    · rw [dedupStep_not_mem acc m (fun a ha hc => hmem (hc ▸ List.mem_map_of_mem _ ha))]
      have hnd' : ((acc ++ [m]).map (fun a => a.pubkey)).Nodup := by
        simp only [List.map_append, List.map_cons, List.map_nil]
        rw [List.nodup_append]
        exact ⟨hnd, List.nodup_singleton _, by simpa using fun hc => hmem hc⟩
      rw [ih _ hnd']
      have hfilter_cons : (m :: l).filter
            (fun x => ¬x.pubkey ∈ acc.map (fun a => a.pubkey))
          = m :: l.filter (fun x => ¬x.pubkey ∈ acc.map (fun a => a.pubkey)) := by
        rw [List.filter_cons]
        simp [hmem]
      rw [hfilter_cons]
      rw [dedupSpec_cons]
      have hany : (l.filter (fun x => ¬x.pubkey ∈ acc.map (fun a => a.pubkey))).any
            (fun x => decide (x.pubkey = m.pubkey) && x.isWritable)
          = l.any (fun x => decide (x.pubkey = m.pubkey) && x.isWritable) := by
        apply any_filter_of_imp
        intro x hx
        have hxpk : x.pubkey = m.pubkey := by
          cases hdec : decide (x.pubkey = m.pubkey)
          · rw [hdec] at hx; simp at hx
          · exact of_decide_eq_true hdec
        simp only [decide_eq_true_eq]
        rw [hxpk]
        exact fun hc => hmem hc
      have htail : (l.filter (fun x => ¬x.pubkey ∈ acc.map (fun a => a.pubkey))).filter
            (fun x => ¬x.pubkey = m.pubkey)
          = l.filter (fun x => ¬x.pubkey ∈ (acc ++ [m]).map (fun a => a.pubkey)) := by
        rw [List.filter_filter]
        apply List.filter_congr
        intro x _
        simp only [List.map_append, List.map_cons, List.map_nil, List.mem_append,
          List.mem_singleton, decide_eq_true_eq, Bool.and_eq_true, not_or]
        rw [Bool.eq_iff_iff]
        simp only [Bool.and_eq_true, decide_eq_true_eq]
        tauto
      have hmap : acc.map (fun a =>
            { a with isWritable := a.isWritable
                || (m :: l).any (fun x => decide (x.pubkey = a.pubkey) && x.isWritable) })
          = acc.map (fun a =>
            { a with isWritable := a.isWritable
                || l.any (fun x => decide (x.pubkey = a.pubkey) && x.isWritable) }) := by
        apply List.map_congr_left
        intro a ha
        have : ¬m.pubkey = a.pubkey := by
          intro hc
          exact hmem (hc ▸ List.mem_map_of_mem _ ha)
        simp [List.any_cons, this]
      rw [hmap, hany, htail]
      simp [List.map_append]

theorem uniqueMetasOf_eq_dedupSpec (ixs : List TransactionInstruction) :
    uniqueMetasOf ixs = dedupSpec ((collectMetas ixs).mergeSort metaLe) := by
  unfold uniqueMetasOf
  rw [foldl_dedupStep_eq _ [] (by simp)]
  simp

theorem dedupSpec_pubkey_mem (l : List AccountMeta) :
    ∀ a ∈ dedupSpec l, a.pubkey ∈ l.map (fun x => x.pubkey) := by
  induction l using dedupSpec.induct with
  | case1 => simp [dedupSpec]
  | case2 m rest ih =>
    intro a ha
    rw [dedupSpec_cons] at ha
    rcases List.mem_cons.mp ha with rfl | ha'
    · simp
    · obtain ⟨x, hx, hxe⟩ := List.mem_map.mp (ih a ha')
      exact List.mem_map.mpr ⟨x, List.mem_cons_of_mem _ (List.mem_of_mem_filter hx), hxe⟩

theorem dedupSpec_filter_pk (m : AccountMeta) (rest : List AccountMeta) (a : AccountMeta)
    (ha : a ∈ dedupSpec (rest.filter (fun x => ¬x.pubkey = m.pubkey))) :
    ¬a.pubkey = m.pubkey := by
  obtain ⟨y, hy, hye⟩ := List.mem_map.mp (dedupSpec_pubkey_mem _ a ha)
  have hy' : ¬y.pubkey = m.pubkey := by simpa using List.of_mem_filter hy
  intro hc
  exact hy' (by rw [hye, hc])

theorem dedupSpec_keys_nodup (l : List AccountMeta) :
    ((dedupSpec l).map (fun x => x.pubkey)).Nodup := by
  induction l using dedupSpec.induct with
  | case1 => simp [dedupSpec]
  | case2 m rest ih =>
    rw [dedupSpec_cons]
    simp only [List.map_cons, List.nodup_cons]
    refine ⟨?_, ih⟩
    intro hc
    obtain ⟨x, hx, hxe⟩ := List.mem_map.mp hc
    exact dedupSpec_filter_pk m rest x hx (by simpa using hxe)

theorem dedupSpec_writable (l : List AccountMeta) :
    ∀ a ∈ dedupSpec l,
      a.isWritable = l.any (fun x => decide (x.pubkey = a.pubkey) && x.isWritable) := by
  induction l using dedupSpec.induct with
  | case1 => simp [dedupSpec]
  | case2 m rest ih =>
    intro a ha
    rw [dedupSpec_cons] at ha
    rcases List.mem_cons.mp ha with rfl | ha'
    · simp [List.any_cons]
    · have hpk : ¬a.pubkey = m.pubkey := dedupSpec_filter_pk m rest a ha'
      rw [ih a ha', any_filter_of_imp]
      · rw [List.any_cons]
        have hd : decide (m.pubkey = a.pubkey) = false := by
          simp only [decide_eq_false_iff_not]
          exact fun hc => hpk hc.symm
        rw [hd, Bool.false_and, Bool.false_or]
      · intro x hx
        simp only [Bool.and_eq_true, decide_eq_true_eq] at hx
        simp only [decide_eq_true_eq]
        intro hc
        exact hpk (hx.1 ▸ hc)

theorem find?_filter_of_imp {α : Type} (l : List α) (q p : α → Bool)
    (h : ∀ x, p x = true → q x = true) (f : α)
    (hf : (l.filter q).find? p = some f) : l.find? p = some f := by
  induction l with
  | nil => simp at hf
  | cons a rest ih =>
    by_cases hq : q a = true
    · rw [List.filter_cons_of_pos hq] at hf
      by_cases hp : p a = true
      · rw [List.find?_cons_of_pos _ hp] at hf ⊢
        exact hf
      · rw [List.find?_cons_of_neg _ (by simpa using hp)] at hf ⊢
        exact ih hf
    · have hp : p a = false := by
        cases hpa : p a
        · rfl
        · exact absurd (h a hpa) hq
      rw [List.filter_cons_of_neg (by simpa using hq)] at hf
      rw [List.find?_cons_of_neg _ (by simp [hp])]
      exact ih hf

theorem dedupSpec_signer (l : List AccountMeta) :
    ∀ a ∈ dedupSpec l,
      ∃ f, l.find? (fun x => decide (x.pubkey = a.pubkey)) = some f
        ∧ a.isSigner = f.isSigner := by
  induction l using dedupSpec.induct with
  | case1 => simp [dedupSpec]
  | case2 m rest ih =>
    intro a ha
    rw [dedupSpec_cons] at ha
    rcases List.mem_cons.mp ha with rfl | ha'
    · exact ⟨m, List.find?_cons_of_pos _ (by simp), rfl⟩
    · obtain ⟨f, hf, hs⟩ := ih a ha'
      have hpk : ¬a.pubkey = m.pubkey := dedupSpec_filter_pk m rest a ha'
      refine ⟨f, ?_, hs⟩
      rw [List.find?_cons_of_neg _ (by
        simp only [decide_eq_true_eq]
        exact fun hc => hpk hc.symm)]
      refine find?_filter_of_imp rest _ _ ?_ f hf
      intro x hx
      simp only [decide_eq_true_eq] at hx
      simp only [decide_eq_true_eq]
      intro hc
      exact hpk (hx ▸ hc)

theorem metaLe_trans (a b c : AccountMeta) (h1 : metaLe a b = true)
    (h2 : metaLe b c = true) : metaLe a c = true := by
  unfold metaLe at *
  rcases a with ⟨_, as, aw⟩
  rcases b with ⟨_, bs, bw⟩
  rcases c with ⟨_, cs, cw⟩
  cases as <;> cases aw <;> cases bs <;> cases bw <;> cases cs <;> cases cw <;>
    simp_all

theorem metaLe_total (a b : AccountMeta) : (metaLe a b || metaLe b a) = true := by
  unfold metaLe
  rcases a with ⟨_, as, aw⟩
  rcases b with ⟨_, bs, bw⟩
  cases as <;> cases aw <;> cases bs <;> cases bw <;> simp

theorem sorted_find?_signer (l : List AccountMeta)
    (hs : List.Pairwise (fun a b => metaLe a b = true) l) (k : PubKey) :
    ∀ f, l.find? (fun x => decide (x.pubkey = k)) = some f →
      f.isSigner = l.any (fun x => decide (x.pubkey = k) && x.isSigner) := by
  induction l with
  | nil => intro f h; simp at h
  | cons m rest ih =>
    intro f h
    rcases List.pairwise_cons.mp hs with ⟨hm, hrest⟩
    by_cases hpk : m.pubkey = k
    · rw [List.find?_cons_of_pos _ (by simp [hpk])] at h
      obtain rfl : m = f := Option.some.inj h
      rw [List.any_cons]
      have hd : decide (m.pubkey = k) = true := by simp [hpk]
      rw [hd, Bool.true_and]
      cases hms : m.isSigner
      · simp only [Bool.false_or]
        symm
        rw [List.any_eq_false]
        intro x hx
        simp only [Bool.and_eq_true, decide_eq_true_eq, not_and]
        intro hxpk
        have hle := hm x hx
        unfold metaLe at hle
        intro hxs
        rw [hms, hxs] at hle
        simp at hle
      · simp
    · rw [List.find?_cons_of_neg _ (by simp [hpk])] at h
      rw [List.any_cons]
      have hd : decide (m.pubkey = k) = false := by simp [hpk]
      rw [hd, Bool.false_and, Bool.false_or]
      exact ih hrest f h

theorem any_mergeSort {α : Type} (le : α → α → Bool) (l : List α) (p : α → Bool) :
    (l.mergeSort le).any p = l.any p := by
  cases hb : l.any p
  · rw [List.any_eq_false] at hb ⊢
    intro x hx
    exact hb x (List.mem_mergeSort.mp hx)
  · rw [List.any_eq_true] at hb ⊢
    obtain ⟨x, hx, hp⟩ := hb
    exact ⟨x, List.mem_mergeSort.mpr hx, hp⟩

theorem nodup_countP_le_one {α β : Type} [DecidableEq β] (l : List α) (f : α → β)
    (hnd : (l.map f).Nodup) (k : β) :
    l.countP (fun a => decide (f a = k)) ≤ 1 := by
  induction l with
  | nil => simp
  | cons a rest ih =>
    simp only [List.map_cons, List.nodup_cons] at hnd
    obtain ⟨hnin, hnd'⟩ := hnd
    by_cases hk : f a = k
    · rw [List.countP_cons_of_pos _ _ (by simp [hk])]
      have hzero : rest.countP (fun x => decide (f x = k)) = 0 := by
        rw [List.countP_eq_zero]
        intro x hx
        simp only [decide_eq_true_eq]
        intro hc
        apply hnin
        have hfa : f a = f x := by rw [hk, hc]
        rw [hfa]
        exact List.mem_map_of_mem _ hx
      omega
    · rw [List.countP_cons_of_neg _ _ (by simp [hk])]
      exact ih hnd'

/-- The sorted collected metas (the list the duplicate cull consumes). -/
def sortedMetas (ixs : List TransactionInstruction) : List AccountMeta :=
  (collectMetas ixs).mergeSort metaLe

theorem uniqueMetasOf_keys_nodup (ixs : List TransactionInstruction) :
    ((uniqueMetasOf ixs).map (fun x => x.pubkey)).Nodup := by
  rw [uniqueMetasOf_eq_dedupSpec]
  exact dedupSpec_keys_nodup _

/-- **C3**: after the duplicate cull of `compileMessage`, the meta table
has at most one entry per unique address, and that entry's signer and
writable flags each equal the OR of the corresponding flags over all
collected metas for that address (instruction metas plus the appended
program-id metas).  The writable OR is merged explicitly by the cull; the
signer OR holds because the preceding sort places signer duplicates
first. -/
theorem compileMessage_dedup_or (ixs : List TransactionInstruction) :
    (∀ k : PubKey, (uniqueMetasOf ixs).countP (fun m => decide (m.pubkey = k)) ≤ 1) ∧
    ∀ m ∈ uniqueMetasOf ixs,
      m.isSigner
        = (collectMetas ixs).any (fun x => decide (x.pubkey = m.pubkey) && x.isSigner) ∧
      m.isWritable
        = (collectMetas ixs).any (fun x => decide (x.pubkey = m.pubkey) && x.isWritable) := by
  constructor
  · intro k
    exact nodup_countP_le_one _ _ (uniqueMetasOf_keys_nodup ixs) k
  · intro m hm
    rw [uniqueMetasOf_eq_dedupSpec] at hm
    constructor
    · obtain ⟨f, hf, hs⟩ := dedupSpec_signer _ m hm
      rw [hs, sorted_find?_signer _ (List.sorted_mergeSort metaLe_trans metaLe_total _)
        _ f hf, any_mergeSort]
    · rw [dedupSpec_writable _ m hm, any_mergeSort]

instance : Inhabited AccountMeta := ⟨⟨[], false, false⟩⟩

/-- Duplicate-consistency of a collected meta list: any two metas for the
same address carry identical flags.  (The amended C2 requires it: because
the sort runs before the duplicate cull, merging the writable flag of a
later duplicate into an earlier read-only occurrence can break the sorted
order, see `c2_counterexample`.) -/
def FlagConsistent (l : List AccountMeta) : Prop :=
  ∀ x ∈ l, ∀ y ∈ l, x.pubkey = y.pubkey →
    x.isSigner = y.isSigner ∧ x.isWritable = y.isWritable

instance (l : List AccountMeta) : Decidable (FlagConsistent l) := by
  unfold FlagConsistent; infer_instance

theorem dedupSpec_sublist (l : List AccountMeta) (hc : FlagConsistent l) :
    (dedupSpec l).Sublist l := by
  induction l using dedupSpec.induct with
  | case1 => simp [dedupSpec]
  | case2 m rest ih =>
    rw [dedupSpec_cons]
    have hc' : FlagConsistent (rest.filter (fun x => ¬x.pubkey = m.pubkey)) := by
      intro x hx y hy hxy
      exact hc x (List.mem_cons_of_mem _ (List.mem_of_mem_filter hx))
        y (List.mem_cons_of_mem _ (List.mem_of_mem_filter hy)) hxy
    have hhead : ({ m with isWritable := m.isWritable || rest.any (fun x => decide (x.pubkey = m.pubkey) && x.isWritable) } : AccountMeta) = m := by
      cases hany : rest.any (fun x => decide (x.pubkey = m.pubkey) && x.isWritable)
      · rw [Bool.or_false]
      · obtain ⟨x, hx, hpx⟩ := List.any_eq_true.mp hany
        simp only [Bool.and_eq_true, decide_eq_true_eq] at hpx
        have hflags := hc x (List.mem_cons_of_mem _ hx) m (List.mem_cons_self _ _) hpx.1
        have hmw : m.isWritable = true := by rw [← hflags.2]; exact hpx.2
        rw [Bool.or_true, ← hmw]
    rw [hhead]
    exact List.Sublist.cons₂ m ((ih hc').trans (List.filter_sublist _))

/-- The fee-payer meta compares below every meta: it is signer and
writable, the maximum of the sort order. -/
theorem metaLe_feePayer (fp : PubKey) (x : AccountMeta) :
    metaLe ⟨fp, true, true⟩ x = true := by
  unfold metaLe
  rcases x with ⟨_, xs, xw⟩
  cases xs <;> cases xw <;> simp

/-- Between two metas with the same signer flag, the sort order is the
writable order. -/
theorem metaLe_same_signer (x y : AccountMeta) (h : x.isSigner = y.isSigner)
    (hle : metaLe x y = true) : (x.isWritable || !y.isWritable) = true := by
  unfold metaLe at hle
  rcases x with ⟨_, xs, xw⟩
  rcases y with ⟨_, ys, yw⟩
  simp only at h hle ⊢
  subst h
  cases xw <;> cases yw <;> simp_all

theorem eraseIdx_keys_of_nodup (L : List AccountMeta) :
    ∀ (i : Nat) (u : AccountMeta),
      (L.map (fun x => x.pubkey)).Nodup → L[i]? = some u →
      ∀ x ∈ L.eraseIdx i, ¬x.pubkey = u.pubkey := by
  induction L with
  | nil => intro i u _ hu; simp at hu
  | cons a rest ih =>
    intro i u hnd hu
    simp only [List.map_cons, List.nodup_cons] at hnd
    obtain ⟨hnin, hnd'⟩ := hnd
    cases i with
    | zero =>
      obtain rfl : a = u := by simpa using hu
      intro x hx
      rw [List.eraseIdx_zero, List.tail_cons] at hx
      intro hc
      exact hnin (hc ▸ List.mem_map_of_mem _ hx)
    | succ j =>
      rw [List.getElem?_cons_succ] at hu
      intro x hx
      rw [List.eraseIdx_cons_succ] at hx
      rcases List.mem_cons.mp hx with rfl | hx'
      · have humem : u ∈ rest := by
          rcases List.getElem?_eq_some.mp hu with ⟨hlt, hget⟩
          exact hget ▸ List.getElem_mem hlt
        intro hc
        exact hnin (hc ▸ List.mem_map_of_mem _ humem)
      · exact ih j u hnd' hu x hx'

theorem mem_eraseIdx_of_pk_ne (L : List AccountMeta) :
    ∀ (i : Nat) (u : AccountMeta), L[i]? = some u →
      ∀ x ∈ L, ¬x.pubkey = u.pubkey → x ∈ L.eraseIdx i := by
  induction L with
  | nil => intro i u hu; simp at hu
  | cons a rest ih =>
    intro i u hu x hx hne
    cases i with
    | zero =>
      obtain rfl : a = u := by simpa using hu
      rw [List.eraseIdx_zero, List.tail_cons]
      rcases List.mem_cons.mp hx with rfl | hx'
      · exact absurd rfl hne
      · exact hx'
    | succ j =>
      rw [List.getElem?_cons_succ] at hu
      rw [List.eraseIdx_cons_succ]
      rcases List.mem_cons.mp hx with rfl | hx'
      · exact List.mem_cons_self _ _
      · exact List.mem_cons_of_mem _ (ih j u hu x hx' hne)

/-- `moveFeePayer` always produces the forced fee-payer meta at the head,
over a tail that is a sublist of the input. -/
theorem moveFeePayer_eq (fp : PubKey) (L : List AccountMeta) :
    ∃ rest, moveFeePayer fp L = ⟨fp, true, true⟩ :: rest ∧ rest.Sublist L := by
  unfold moveFeePayer
  cases hfi : L.findIdx? (fun x => decide (x.pubkey = fp)) with
  | none => exact ⟨L, rfl, List.Sublist.refl L⟩
  | some i =>
    obtain ⟨u, hu, hpu⟩ := findIdx?_spec _ L i hfi
    have hupk : u.pubkey = fp := of_decide_eq_true hpu
    refine ⟨L.eraseIdx i, ?_, List.eraseIdx_sublist L i⟩
    show (match L[i]? with
      | some payerMeta =>
        ({ payerMeta with isSigner := true, isWritable := true } : AccountMeta)
          :: L.eraseIdx i
      | none => L) = ⟨fp, true, true⟩ :: L.eraseIdx i
    rw [hu]
    dsimp only
    rw [hupk]

/-- With unique keys, every element of `moveFeePayer`'s tail has a key
different from the fee payer. -/
theorem moveFeePayer_tail_pk (fp : PubKey) (L : List AccountMeta)
    (hnd : (L.map (fun x => x.pubkey)).Nodup)
    (rest : List AccountMeta) (hrest : moveFeePayer fp L = ⟨fp, true, true⟩ :: rest) :
    ∀ x ∈ rest, ¬x.pubkey = fp := by
  unfold moveFeePayer at hrest
  cases hfi : L.findIdx? (fun x => decide (x.pubkey = fp)) with
  | none =>
    rw [hfi] at hrest
    dsimp only at hrest
    injection hrest with h1 h2
    subst h2
    intro x hx hc
    have := List.findIdx?_eq_none_iff.mp hfi x hx
    simp [hc] at this
  | some i =>
    rw [hfi] at hrest
    obtain ⟨u, hu, hpu⟩ := findIdx?_spec _ L i hfi
    dsimp only at hrest
    rw [hu] at hrest
    injection hrest with h1 h2
    subst h2
    intro x hx hc
    have hupk : u.pubkey = fp := of_decide_eq_true hpu
    exact eraseIdx_keys_of_nodup L i u hnd hu x hx (by rw [hc, hupk])

/-- Members of `moveFeePayer`'s tail come from the input list. -/
theorem moveFeePayer_tail_mem (fp : PubKey) (L : List AccountMeta)
    (rest : List AccountMeta) (hrest : moveFeePayer fp L = ⟨fp, true, true⟩ :: rest) :
    ∀ x ∈ rest, x ∈ L := by
  obtain ⟨rest', hr', hsub⟩ := moveFeePayer_eq fp L
  rw [hrest] at hr'
  injection hr' with h1 h2
  subst h2
  intro x hx
  exact hsub.mem hx

/-- An element of the input with a key different from the fee payer
survives into `moveFeePayer`'s tail. -/
theorem moveFeePayer_tail_of_mem (fp : PubKey) (L : List AccountMeta)
    (rest : List AccountMeta) (hrest : moveFeePayer fp L = ⟨fp, true, true⟩ :: rest)
    (x : AccountMeta) (hx : x ∈ L) (hne : ¬x.pubkey = fp) : x ∈ rest := by
  unfold moveFeePayer at hrest
  cases hfi : L.findIdx? (fun y => decide (y.pubkey = fp)) with
  | none =>
    rw [hfi] at hrest
    dsimp only at hrest
    injection hrest with h1 h2
    subst h2
    exact hx
  | some i =>
    rw [hfi] at hrest
    obtain ⟨u, hu, hpu⟩ := findIdx?_spec _ L i hfi
    dsimp only at hrest
    rw [hu] at hrest
    injection hrest with h1 h2
    subst h2
    have hupk : u.pubkey = fp := of_decide_eq_true hpu
    exact mem_eraseIdx_of_pk_ne L i u hu x hx (by rw [hupk]; exact hne)

/-- When every signature key's first (indeed only) matching table entry is
already a signer, the unknown-signer loop is the identity. -/
theorem applySignatureFlip_id (L : List AccountMeta)
    (sigs : List SignaturePubkeyPair)
    (h : ∀ sig ∈ sigs, ∃ pk, sig.publicKey = some pk ∧
      (∃ x ∈ L, x.pubkey = pk) ∧ (∀ x ∈ L, x.pubkey = pk → x.isSigner = true)) :
    applySignatureFlip L sigs = .ok L := by
  induction sigs with
  | nil => rfl
  | cons sig rest ih =>
    obtain ⟨pk, hpk, ⟨w, hw, hwpk⟩, hall⟩ := h sig (List.mem_cons_self _ _)
    unfold applySignatureFlip
    rw [hpk]
    dsimp only
    cases hfi : L.findIdx? (fun x => decide (x.pubkey = pk)) with
    | none =>
      have := List.findIdx?_eq_none_iff.mp hfi w hw
      simp [hwpk] at this
    | some i =>
      obtain ⟨u, hu, hpu⟩ := findIdx?_spec _ L i hfi
      dsimp only
      rw [hu]
      have humem : u ∈ L := by
        rcases List.getElem?_eq_some.mp hu with ⟨hlt, hget⟩
        exact hget ▸ List.getElem_mem hlt
      dsimp only
      rw [hall u humem (of_decide_eq_true hpu), if_pos rfl]
      exact ih (fun s hs => h s (List.mem_cons_of_mem _ hs))

/-- The accumulation loop of step 6, fully characterized. -/
theorem splitKeysAndCounts_eq (L : List AccountMeta) :
    splitKeysAndCounts L
      = ((L.filter (fun m => m.isSigner)).map (fun m => m.pubkey),
         (L.filter (fun m => !m.isSigner)).map (fun m => m.pubkey),
         (L.filter (fun m => m.isSigner)).length,
         L.countP (fun m => m.isSigner && !m.isWritable),
         L.countP (fun m => !m.isSigner && !m.isWritable)) := by
  suffices hgen : ∀ (sk uk : List PubKey) (a b c : Nat),
      L.foldl (fun st meta =>
        if meta.isSigner then
          (st.1 ++ [meta.pubkey], st.2.1, st.2.2.1 + 1,
            if meta.isWritable then st.2.2.2.1 else st.2.2.2.1 + 1,
            st.2.2.2.2)
        else
          (st.1, st.2.1 ++ [meta.pubkey], st.2.2.1,
            st.2.2.2.1,
            if meta.isWritable then st.2.2.2.2 else st.2.2.2.2 + 1))
        (sk, uk, a, b, c)
      = (sk ++ (L.filter (fun m => m.isSigner)).map (fun m => m.pubkey),
         uk ++ (L.filter (fun m => !m.isSigner)).map (fun m => m.pubkey),
         a + (L.filter (fun m => m.isSigner)).length,
         b + L.countP (fun m => m.isSigner && !m.isWritable),
         c + L.countP (fun m => !m.isSigner && !m.isWritable)) by
    unfold splitKeysAndCounts
    rw [hgen]
    simp
  induction L with
  | nil => intro sk uk a b c; simp
  | cons meta rest ih =>
    intro sk uk a b c
    rw [List.foldl_cons]
    cases hs : meta.isSigner
    · rw [if_neg (by simp [hs])]
      rw [ih]
      cases hw : meta.isWritable <;>
        simp [List.filter_cons, List.countP_cons, hs, hw, List.append_assoc] <;>
        omega
    · rw [if_pos (by simp [hs])]
      cases hw : meta.isWritable
      · rw [if_neg (by simp [hw])]
        rw [ih]
        simp [List.filter_cons, List.countP_cons, hs, hw, List.append_assoc] <;>
          omega
      · rw [if_pos (by simp [hw])]
        rw [ih]
        simp [List.filter_cons, List.countP_cons, hs, hw, List.append_assoc] <;> omega

/-- The duplicate cull keeps every address that was present. -/
theorem dedupSpec_keys_complete (l : List AccountMeta) :
    ∀ k, k ∈ l.map (fun x => x.pubkey) → k ∈ (dedupSpec l).map (fun x => x.pubkey) := by
  induction l using dedupSpec.induct with
  | case1 => simp
  | case2 m rest ih =>
    intro k hk
    rw [dedupSpec_cons]
    by_cases hkm : k = m.pubkey
    · simp [hkm]
    · rw [List.map_cons] at hk
      rcases List.mem_cons.mp hk with h | h
      · exact absurd h hkm
      · obtain ⟨x, hx, hxe⟩ := List.mem_map.mp h
        have hxf : x ∈ rest.filter (fun y => ¬y.pubkey = m.pubkey) := by
          rw [List.mem_filter]
          refine ⟨hx, ?_⟩
          simp only [decide_eq_true_eq]
          intro hc
          exact hkm (hxe.symm.trans hc)
        have := ih k (List.mem_map.mpr ⟨x, hxf, hxe⟩)
        simp only [List.map_cons]
        exact List.mem_cons_of_mem _ this

/-- In a writable-first list, the entry at index `i` is writable exactly
when `i` is below the writable count. -/
theorem pairwise_wLe_getD (l : List AccountMeta)
    (hp : List.Pairwise (fun a b => (a.isWritable || !b.isWritable) = true) l) :
    ∀ i, i < l.length →
      ((l.getD i default).isWritable = true
        ↔ i < l.countP (fun m => m.isWritable)) := by
  induction l with
  | nil => intro i h; simp at h
  | cons a rest ih =>
    rcases List.pairwise_cons.mp hp with ⟨ha, hrest⟩
    intro i hi
    cases i with
    | zero =>
      rw [List.getD_cons_zero]
      cases haw : a.isWritable
      · have hcz : rest.countP (fun m => m.isWritable) = 0 := by
          rw [List.countP_eq_zero]
          intro x hx
          have := ha x hx
          rw [haw] at this
          simpa using this
        rw [List.countP_cons_of_neg _ _ (by simp [haw]), hcz]
        simp
      · rw [List.countP_cons_of_pos _ _ (by simp [haw])]
        simp
    | succ j =>
      rw [List.getD_cons_succ]
      have hj : j < rest.length := by simpa using hi
      cases haw : a.isWritable
      · have hall : ∀ x ∈ rest, x.isWritable = false := by
          intro x hx
          have := ha x hx
          rw [haw] at this
          simpa using this
        have hcz : rest.countP (fun m => m.isWritable) = 0 := by
          rw [List.countP_eq_zero]
          intro x hx
          simp [hall x hx]
        rw [List.countP_cons_of_neg _ _ (by simp [haw]), hcz]
        have hg : (rest.getD j default).isWritable = false := by
          apply hall
          rw [List.getD_eq_getElem?_getD, List.getElem?_eq_getElem hj]
          exact List.getElem_mem hj
        rw [hg]
        simp
      · rw [List.countP_cons_of_pos _ _ (by simp [haw])]
        rw [ih hrest j hj]
        omega

/-- Under duplicate-consistency and signatures that only name the fee
payer or compiled signers, the signature loop is the identity and the
final meta table is the forced fee-payer meta over a sorted tail. -/
theorem finalMetas_shape (tx : Transaction) (L : List AccountMeta) (fp : PubKey)
    (hL : finalMetas tx = .ok L)
    (hfp : resolveFeePayer tx = .ok fp)
    (hcons : FlagConsistent (collectMetas tx.instructions))
    (hsigs : ∀ sig ∈ tx.signatures, ∃ pk, sig.publicKey = some pk ∧
      (pk = fp ∨ ∃ x ∈ collectMetas tx.instructions, x.pubkey = pk ∧ x.isSigner = true)) :
    (∃ tail, L = ⟨fp, true, true⟩ :: tail) ∧
    List.Pairwise (fun a b => metaLe a b = true) L := by
  obtain ⟨tail, hmv, hsub⟩ := moveFeePayer_eq fp (uniqueMetasOf tx.instructions)
  have hnd := uniqueMetasOf_keys_nodup tx.instructions
  have hsigner_of_meta : ∀ (pk : PubKey), (∃ x ∈ collectMetas tx.instructions,
      x.pubkey = pk ∧ x.isSigner = true) →
      ∀ u ∈ uniqueMetasOf tx.instructions, u.pubkey = pk → u.isSigner = true := by
    intro pk ⟨w, hwmem, hwpk, hwsign⟩ u humem hupk
    have hor := ((compileMessage_dedup_or tx.instructions).2 u humem).1
    rw [hor, List.any_eq_true]
    exact ⟨w, hwmem, by simp [hwpk, hupk, hwsign]⟩
  have hid : applySignatureFlip (moveFeePayer fp (uniqueMetasOf tx.instructions))
      tx.signatures = .ok (moveFeePayer fp (uniqueMetasOf tx.instructions)) := by
    apply applySignatureFlip_id
    intro sig hsig
    obtain ⟨pk, hpk, hcase⟩ := hsigs sig hsig
    by_cases hpkfp : pk = fp
    · subst hpkfp
      refine ⟨pk, hpk, ⟨⟨pk, true, true⟩, by rw [hmv]; exact List.mem_cons_self _ _, rfl⟩, ?_⟩
      intro x hx hxpk
      rw [hmv] at hx
      rcases List.mem_cons.mp hx with rfl | hx'
      · rfl
      · exact absurd hxpk (moveFeePayer_tail_pk pk _ hnd tail hmv x hx')
    · rcases hcase with rfl | hmeta
      · exact absurd rfl hpkfp
      · obtain ⟨w, hwmem, hwpk, hwsign⟩ := hmeta
        have hpk_in_U : pk ∈ (uniqueMetasOf tx.instructions).map (fun x => x.pubkey) := by
          rw [uniqueMetasOf_eq_dedupSpec]
          apply dedupSpec_keys_complete
          exact List.mem_map.mpr ⟨w, List.mem_mergeSort.mpr hwmem, hwpk⟩
        obtain ⟨u, humem, hupk⟩ := List.mem_map.mp hpk_in_U
        have husign : u.isSigner = true :=
          hsigner_of_meta pk ⟨w, hwmem, hwpk, hwsign⟩ u humem hupk
        refine ⟨pk, hpk, ?_, ?_⟩
        · refine ⟨u, ?_, hupk⟩
          rw [hmv]
          exact List.mem_cons_of_mem _
            (moveFeePayer_tail_of_mem fp _ tail hmv u humem (by rw [hupk]; exact hpkfp))
        · intro x hx hxpk
          rw [hmv] at hx
          rcases List.mem_cons.mp hx with rfl | hx'
          · exact absurd (show pk = fp from hxpk.symm) hpkfp
          · exact hsigner_of_meta pk ⟨w, hwmem, hwpk, hwsign⟩ x
              (moveFeePayer_tail_mem fp _ tail hmv x hx') hxpk
  have hLmv : L = moveFeePayer fp (uniqueMetasOf tx.instructions) := by
    unfold finalMetas at hL
    rw [hfp] at hL
    dsimp only at hL
    rw [hid] at hL
    exact (Except.ok.inj hL).symm
  have hcons' : FlagConsistent ((collectMetas tx.instructions).mergeSort metaLe) := by
    intro x hx y hy hxy
    exact hcons x (List.mem_mergeSort.mp hx) y (List.mem_mergeSort.mp hy) hxy
  have hU_sorted : List.Pairwise (fun a b => metaLe a b = true)
      (uniqueMetasOf tx.instructions) := by
    rw [uniqueMetasOf_eq_dedupSpec]
    exact List.Pairwise.sublist (dedupSpec_sublist _ hcons')
      (List.sorted_mergeSort metaLe_trans metaLe_total _)
  refine ⟨⟨tail, by rw [hLmv, hmv]⟩, ?_⟩
  rw [hLmv, hmv]
  rw [List.pairwise_cons]
  exact ⟨fun x _ => metaLe_feePayer fp x, List.Pairwise.sublist hsub hU_sorted⟩

/-- Unfolding `compileMessage` on a success: the account key table and the
header counts in terms of the final meta table. -/
theorem compileMessage_fields (tx : Transaction) (msg : Message)
    (L : List AccountMeta) (rb : List Nat)
    (hrb : tx.recentBlockhash = some rb)
    (hL : finalMetas tx = .ok L)
    (hok : tx.compileMessage = .ok msg) :
    msg.accountKeys
      = (L.filter (fun m => m.isSigner)).map (fun m => m.pubkey)
        ++ (L.filter (fun m => !m.isSigner)).map (fun m => m.pubkey) ∧
    msg.header.numRequiredSignatures = (L.filter (fun m => m.isSigner)).length ∧
    msg.header.numReadonlySignedAccounts
      = L.countP (fun m => m.isSigner && !m.isWritable) ∧
    msg.header.numReadonlyUnsignedAccounts
      = L.countP (fun m => !m.isSigner && !m.isWritable) ∧
    msg.recentBlockhash = rb := by
  unfold Transaction.compileMessage at hok
  rw [hrb] at hok
  dsimp only at hok
  rw [hL] at hok
  dsimp only at hok
  cases hci : compileInstructions
      ((splitKeysAndCounts L).1 ++ (splitKeysAndCounts L).2.1) tx.instructions with
  | error e =>
    rw [hci] at hok
    exact absurd hok (by simp)
  | ok instrs =>
    rw [hci] at hok
    dsimp only at hok
    obtain rfl := Except.ok.inj hok
    rw [splitKeysAndCounts_eq]
    exact ⟨rfl, rfl, rfl, rfl, rfl⟩

/-- When the header counts and key table come from a partition with
writable-first blocks, the header-derived `isAccountWritable` agrees with
the per-account writable flag. -/
theorem isAccountWritable_partition (msg : Message) (L : List AccountMeta)
    (hkeys : msg.accountKeys
      = (L.filter (fun m => m.isSigner)).map (fun m => m.pubkey)
        ++ (L.filter (fun m => !m.isSigner)).map (fun m => m.pubkey))
    (h1 : msg.header.numRequiredSignatures = (L.filter (fun m => m.isSigner)).length)
    (h2 : msg.header.numReadonlySignedAccounts
      = L.countP (fun m => m.isSigner && !m.isWritable))
    (h3 : msg.header.numReadonlyUnsignedAccounts
      = L.countP (fun m => !m.isSigner && !m.isWritable))
    (hS : List.Pairwise (fun a b => (a.isWritable || !b.isWritable) = true)
      (L.filter (fun m => m.isSigner)))
    (hU : List.Pairwise (fun a b => (a.isWritable || !b.isWritable) = true)
      (L.filter (fun m => !m.isSigner))) :
    ∀ i, i < msg.accountKeys.length →
      msg.isAccountWritable i
        = ((L.filter (fun m => m.isSigner)
            ++ L.filter (fun m => !m.isSigner)).getD i default).isWritable := by
  intro i hi
  have hlen : msg.accountKeys.length
      = (L.filter (fun m => m.isSigner)).length
        + (L.filter (fun m => !m.isSigner)).length := by
    rw [hkeys]
    simp
  have hros : msg.header.numReadonlySignedAccounts
      = (L.filter (fun m => m.isSigner)).countP (fun m => !m.isWritable) := by
    rw [h2, List.countP_filter]
    apply List.countP_congr
    intro x _
    cases hxs : x.isSigner <;> cases hxw : x.isWritable <;> simp [hxs, hxw]
  have hrou : msg.header.numReadonlyUnsignedAccounts
      = (L.filter (fun m => !m.isSigner)).countP (fun m => !m.isWritable) := by
    rw [h3, List.countP_filter]
    apply List.countP_congr
    intro x _
    cases hxs : x.isSigner <;> cases hxw : x.isWritable <;> simp [hxs, hxw]
  have hSsplit : (L.filter (fun m => m.isSigner)).length
      = (L.filter (fun m => m.isSigner)).countP (fun m => m.isWritable)
        + (L.filter (fun m => m.isSigner)).countP (fun m => !m.isWritable) := by
    rw [List.length_eq_countP_add_countP (fun m => m.isWritable)]
    congr 1
    apply List.countP_congr
    intro x _
    cases hxw : x.isWritable <;> simp [hxw]
  have hUsplit : (L.filter (fun m => !m.isSigner)).length
      = (L.filter (fun m => !m.isSigner)).countP (fun m => m.isWritable)
        + (L.filter (fun m => !m.isSigner)).countP (fun m => !m.isWritable) := by
    rw [List.length_eq_countP_add_countP (fun m => m.isWritable)]
    congr 1
    apply List.countP_congr
    intro x _
    cases hxw : x.isWritable <;> simp [hxw]
  unfold Message.isAccountWritable
  rw [h1, hros, hrou, hlen]
  by_cases hiS : i < (L.filter (fun m => m.isSigner)).length
  · have hg : ((L.filter (fun m => m.isSigner)
        ++ L.filter (fun m => !m.isSigner)).getD i default)
        = (L.filter (fun m => m.isSigner)).getD i default := by
      rw [List.getD_eq_getElem?_getD, List.getD_eq_getElem?_getD,
        List.getElem?_append, if_pos hiS]
    rw [hg]
    have hc2 : decide ((L.filter (fun m => m.isSigner)).length ≤ i) = false := by
      simp only [decide_eq_false_iff_not, not_le]
      exact hiS
    rw [hc2, Bool.false_and, Bool.or_false]
    rw [Bool.eq_iff_iff, decide_eq_true_eq,
      pairwise_wLe_getD _ hS i hiS]
    omega
  · have hg : ((L.filter (fun m => m.isSigner)
        ++ L.filter (fun m => !m.isSigner)).getD i default)
        = (L.filter (fun m => !m.isSigner)).getD
            (i - (L.filter (fun m => m.isSigner)).length) default := by
      rw [List.getD_eq_getElem?_getD, List.getD_eq_getElem?_getD,
        List.getElem?_append, if_neg hiS]
    rw [hg]
    have hc1 : decide (i < (L.filter (fun m => m.isSigner)).length
        - (L.filter (fun m => m.isSigner)).countP (fun m => !m.isWritable)) = false := by
      simp only [decide_eq_false_iff_not, not_lt]
      omega
    have hc2 : decide ((L.filter (fun m => m.isSigner)).length ≤ i) = true := by
      simp only [decide_eq_true_eq]
      omega
    rw [hc1, hc2, Bool.false_or, Bool.true_and]
    have hiU : i - (L.filter (fun m => m.isSigner)).length
        < (L.filter (fun m => !m.isSigner)).length := by
      rw [hlen] at hi
      omega
    rw [Bool.eq_iff_iff, decide_eq_true_eq,
      pairwise_wLe_getD _ hU _ hiU]
    omega

/-- **C2 (amended)**: for a compiled `Message`, provided (a) all metas
collected for the same address carry identical flags (the sort runs
before the duplicate cull, so merging a later duplicate's writable flag
can otherwise break the sorted order) and (b) every pre-existing
signature names the fee payer or an address some instruction marks as a
signer (otherwise the deprecated unnecessary-signature path flips a
non-signer to signer after sorting), the table is all signers first and
writable-before-readonly within each partition, the fee payer is the
forced signer+writable entry at index 0, and the three header counts are
consistent with the partition (the header-derived `isAccountWritable`
agrees with every account's compiled writable flag).  Without (a) or (b)
the invariant fails: see `c2_counterexample`. -/
theorem compileMessage_ordering (tx : Transaction) (msg : Message)
    (L : List AccountMeta) (fp : PubKey) (rb : List Nat)
    (hrb : tx.recentBlockhash = some rb)
    (hok : tx.compileMessage = .ok msg)
    (hL : finalMetas tx = .ok L)
    (hfp : resolveFeePayer tx = .ok fp)
    (hcons : FlagConsistent (collectMetas tx.instructions))
    (hsigs : ∀ sig ∈ tx.signatures, ∃ pk, sig.publicKey = some pk ∧
      (pk = fp ∨ ∃ x ∈ collectMetas tx.instructions, x.pubkey = pk ∧ x.isSigner = true)) :
    msg.accountKeys
      = (L.filter (fun m => m.isSigner)).map (fun m => m.pubkey)
        ++ (L.filter (fun m => !m.isSigner)).map (fun m => m.pubkey) ∧
    L.head? = some ⟨fp, true, true⟩ ∧
    msg.accountKeys.head? = some fp ∧
    msg.header.numRequiredSignatures = (L.filter (fun m => m.isSigner)).length ∧
    msg.header.numReadonlySignedAccounts
      = L.countP (fun m => m.isSigner && !m.isWritable) ∧
    msg.header.numReadonlyUnsignedAccounts
      = L.countP (fun m => !m.isSigner && !m.isWritable) ∧
    List.Pairwise (fun a b => (a.isWritable || !b.isWritable) = true)
      (L.filter (fun m => m.isSigner)) ∧
    List.Pairwise (fun a b => (a.isWritable || !b.isWritable) = true)
      (L.filter (fun m => !m.isSigner)) ∧
    ∀ i, i < msg.accountKeys.length →
      msg.isAccountWritable i
        = ((L.filter (fun m => m.isSigner)
            ++ L.filter (fun m => !m.isSigner)).getD i default).isWritable := by
  obtain ⟨⟨tail, htail⟩, hPL⟩ := finalMetas_shape tx L fp hL hfp hcons hsigs
  obtain ⟨hkeys, h1, h2, h3, _⟩ := compileMessage_fields tx msg L rb hrb hL hok
  have hS_pair : List.Pairwise (fun a b => (a.isWritable || !b.isWritable) = true)
      (L.filter (fun m => m.isSigner)) := by
    refine List.Pairwise.imp_of_mem ?_
      (List.Pairwise.sublist (List.filter_sublist _) hPL)
    intro a b ha hb hr
    have has : a.isSigner = true := by simpa using (List.mem_filter.mp ha).2
    have hbs : b.isSigner = true := by simpa using (List.mem_filter.mp hb).2
    exact metaLe_same_signer a b (has.trans hbs.symm) hr
  have hU_pair : List.Pairwise (fun a b => (a.isWritable || !b.isWritable) = true)
      (L.filter (fun m => !m.isSigner)) := by
    refine List.Pairwise.imp_of_mem ?_
      (List.Pairwise.sublist (List.filter_sublist _) hPL)
    intro a b ha hb hr
    have has : a.isSigner = false := by
      have := (List.mem_filter.mp ha).2
      simp only [Bool.not_eq_true'] at this
      exact this
    have hbs : b.isSigner = false := by
      have := (List.mem_filter.mp hb).2
      simp only [Bool.not_eq_true'] at this
      exact this
    exact metaLe_same_signer a b (has.trans hbs.symm) hr
  have hSform : L.filter (fun m => m.isSigner)
      = (⟨fp, true, true⟩ : AccountMeta) :: tail.filter (fun m => m.isSigner) := by
    rw [htail, List.filter_cons]
    simp
  refine ⟨hkeys, by rw [htail]; rfl, ?_, h1, h2, h3, hS_pair, hU_pair, ?_⟩
  · rw [hkeys, hSform]
    simp
  · exact isAccountWritable_partition msg L hkeys h1 h2 h3 hS_pair hU_pair

/-- Counterexample transaction for the unamended C2: address `[2]` is
referenced both as a read-only signer and as a writable non-signer, so
the duplicate cull (running after the sort) promotes the read-only signer
entry to writable behind the still-read-only signer `[1]`. -/
def c2Tx : Transaction :=
  { signatures := []
    feePayer := some [7]
    recentBlockhash := some [3]
    instructions :=
      [⟨[⟨[1], true, false⟩, ⟨[2], true, false⟩], [9], []⟩,
       ⟨[⟨[2], false, true⟩], [9], []⟩] }

theorem c2Tx_uniqueMetas :
    uniqueMetasOf c2Tx.instructions
      = [⟨[1], true, false⟩, ⟨[2], true, true⟩, ⟨[9], false, false⟩] := by
  unfold uniqueMetasOf
  rw [List.mergeSort_of_sorted (by decide)]
  decide

theorem c2Tx_finalMetas :
    finalMetas c2Tx
      = .ok [⟨[7], true, true⟩, ⟨[1], true, false⟩, ⟨[2], true, true⟩,
          ⟨[9], false, false⟩] := by
  unfold finalMetas
  rw [show resolveFeePayer c2Tx = .ok [7] from rfl]
  dsimp only
  rw [c2Tx_uniqueMetas]
  decide

/-- The message `c2Tx` compiles to. -/
def c2Msg : Message :=
  { header := ⟨3, 1, 1⟩
    accountKeys := [[7], [1], [2], [9]]
    recentBlockhash := [3]
    instructions := [⟨3, [1, 2], []⟩, ⟨3, [2], []⟩] }

theorem c2Tx_compile : Transaction.compileMessage c2Tx = .ok c2Msg := by
  unfold Transaction.compileMessage
  rw [show c2Tx.recentBlockhash = some [3] from rfl]
  dsimp only
  rw [c2Tx_finalMetas]
  dsimp only
  decide

/-- **C2, counterexample**: for `c2Tx` the compiled message exists, but in
the signer partition of its final meta table the read-only key `[1]`
precedes the writable key `[2]`, so writable keys do not all precede
read-only keys, and the header-derived `isAccountWritable` calls account
index 2 read-only even though its meta is writable: the claimed ordering
invariant and header consistency fail. -/
theorem c2_counterexample :
    Transaction.compileMessage c2Tx = .ok c2Msg ∧
    finalMetas c2Tx
      = .ok [⟨[7], true, true⟩, ⟨[1], true, false⟩, ⟨[2], true, true⟩,
          ⟨[9], false, false⟩] ∧
    ¬ List.Pairwise (fun a b => (a.isWritable || !b.isWritable) = true)
      ([(⟨[7], true, true⟩ : AccountMeta), ⟨[1], true, false⟩, ⟨[2], true, true⟩,
        ⟨[9], false, false⟩].filter (fun m => m.isSigner)) ∧
    c2Msg.isAccountWritable 2 = false ∧
    ([(⟨[7], true, true⟩ : AccountMeta), ⟨[1], true, false⟩, ⟨[2], true, true⟩,
        ⟨[9], false, false⟩].getD 2 default).isWritable = true :=
  ⟨c2Tx_compile, c2Tx_finalMetas, by decide, by decide, by decide⟩

/-- Well-behaved example transaction for the amended C2. -/
def c2wTx : Transaction :=
  { signatures := []
    feePayer := some [7]
    recentBlockhash := some [3]
    instructions := [⟨[⟨[4], true, true⟩], [9], []⟩] }

theorem c2wTx_uniqueMetas :
    uniqueMetasOf c2wTx.instructions
      = [⟨[4], true, true⟩, ⟨[9], false, false⟩] := by
  unfold uniqueMetasOf
  rw [List.mergeSort_of_sorted (by decide)]
  decide

theorem c2wTx_finalMetas :
    finalMetas c2wTx
      = .ok [⟨[7], true, true⟩, ⟨[4], true, true⟩, ⟨[9], false, false⟩] := by
  unfold finalMetas
  rw [show resolveFeePayer c2wTx = .ok [7] from rfl]
  dsimp only
  rw [c2wTx_uniqueMetas]
  decide

def c2wMsg : Message :=
  { header := ⟨2, 0, 1⟩
    accountKeys := [[7], [4], [9]]
    recentBlockhash := [3]
    instructions := [⟨2, [1], []⟩] }

theorem c2wTx_compile : Transaction.compileMessage c2wTx = .ok c2wMsg := by
  unfold Transaction.compileMessage
  rw [show c2wTx.recentBlockhash = some [3] from rfl]
  dsimp only
  rw [c2wTx_finalMetas]
  dsimp only
  decide

theorem c2_witness :
    c2wMsg.accountKeys
      = (([(⟨[7], true, true⟩ : AccountMeta), ⟨[4], true, true⟩,
          ⟨[9], false, false⟩]).filter (fun m => m.isSigner)).map (fun m => m.pubkey)
        ++ (([(⟨[7], true, true⟩ : AccountMeta), ⟨[4], true, true⟩,
          ⟨[9], false, false⟩]).filter (fun m => !m.isSigner)).map (fun m => m.pubkey) ∧
    ([(⟨[7], true, true⟩ : AccountMeta), ⟨[4], true, true⟩,
      ⟨[9], false, false⟩]).head? = some ⟨[7], true, true⟩ ∧
    c2wMsg.accountKeys.head? = some [7] ∧
    c2wMsg.header.numRequiredSignatures
      = (([(⟨[7], true, true⟩ : AccountMeta), ⟨[4], true, true⟩,
          ⟨[9], false, false⟩]).filter (fun m => m.isSigner)).length ∧
    c2wMsg.header.numReadonlySignedAccounts
      = ([(⟨[7], true, true⟩ : AccountMeta), ⟨[4], true, true⟩,
          ⟨[9], false, false⟩]).countP (fun m => m.isSigner && !m.isWritable) ∧
    c2wMsg.header.numReadonlyUnsignedAccounts
      = ([(⟨[7], true, true⟩ : AccountMeta), ⟨[4], true, true⟩,
          ⟨[9], false, false⟩]).countP (fun m => !m.isSigner && !m.isWritable) ∧
    List.Pairwise (fun a b => (a.isWritable || !b.isWritable) = true)
      (([(⟨[7], true, true⟩ : AccountMeta), ⟨[4], true, true⟩,
          ⟨[9], false, false⟩]).filter (fun m => m.isSigner)) ∧
    List.Pairwise (fun a b => (a.isWritable || !b.isWritable) = true)
      (([(⟨[7], true, true⟩ : AccountMeta), ⟨[4], true, true⟩,
          ⟨[9], false, false⟩]).filter (fun m => !m.isSigner)) ∧
    ∀ i, i < c2wMsg.accountKeys.length →
      c2wMsg.isAccountWritable i
        = ((([(⟨[7], true, true⟩ : AccountMeta), ⟨[4], true, true⟩,
            ⟨[9], false, false⟩]).filter (fun m => m.isSigner)
          ++ ([(⟨[7], true, true⟩ : AccountMeta), ⟨[4], true, true⟩,
            ⟨[9], false, false⟩]).filter (fun m => !m.isSigner)).getD i
              default).isWritable :=
  compileMessage_ordering c2wTx c2wMsg
    [⟨[7], true, true⟩, ⟨[4], true, true⟩, ⟨[9], false, false⟩] [7] [3]
    rfl c2wTx_compile c2wTx_finalMetas rfl (by decide)
    (fun sig hsig => absurd hsig (by simp [c2wTx]))

/-- Witness transaction for C3: address `[5]` is referenced with
different writable flags, address `[9]` is the program id. -/
def c3Ixs : List TransactionInstruction :=
  [⟨[⟨[5], false, true⟩], [9], []⟩, ⟨[⟨[5], false, false⟩], [9], []⟩]

theorem c3Ixs_uniqueMetas :
    uniqueMetasOf c3Ixs = [⟨[5], false, true⟩, ⟨[9], false, false⟩] := by
  unfold uniqueMetasOf
  rw [List.mergeSort_of_sorted (by decide)]
  decide

theorem c3_witness :
    (uniqueMetasOf c3Ixs).countP (fun m => decide (m.pubkey = [5])) ≤ 1 ∧
    ((⟨[5], false, true⟩ : AccountMeta).isSigner
        = (collectMetas c3Ixs).any (fun x =>
            decide (x.pubkey = (⟨[5], false, true⟩ : AccountMeta).pubkey) && x.isSigner) ∧
      (⟨[5], false, true⟩ : AccountMeta).isWritable
        = (collectMetas c3Ixs).any (fun x =>
            decide (x.pubkey = (⟨[5], false, true⟩ : AccountMeta).pubkey) && x.isWritable)) :=
  ⟨(compileMessage_dedup_or c3Ixs).1 [5],
   (compileMessage_dedup_or c3Ixs).2 ⟨[5], false, true⟩
     (by rw [c3Ixs_uniqueMetas]; exact List.mem_cons_self _ _)⟩

/-- The signature loop never changes the head of the table when the head
is already a signer: flips only touch non-signer entries, which cannot be
the found index 0. -/
theorem applySignatureFlip_head (sigs : List SignaturePubkeyPair) :
    ∀ (L0 L1 : List AccountMeta) (hd : AccountMeta),
      applySignatureFlip L0 sigs = .ok L1 →
      L0.head? = some hd → hd.isSigner = true →
      L1.head? = some hd := by
  induction sigs with
  | nil =>
    intro L0 L1 hd h hh _
    obtain rfl := Except.ok.inj h
    exact hh
  | cons sig rest ih =>
    intro L0 L1 hd h hh hs
    unfold applySignatureFlip at h
    cases hpk : sig.publicKey with
    | none => rw [hpk] at h; exact absurd h (by simp)
    | some pk =>
      rw [hpk] at h
      dsimp only at h
      cases hfi : L0.findIdx? (fun x => decide (x.pubkey = pk)) with
      | none => rw [hfi] at h; exact absurd h (by simp)
      | some i =>
        rw [hfi] at h
        dsimp only at h
        cases hgi : L0[i]? with
        | none =>
          rw [hgi] at h
          dsimp only at h
          exact ih L0 L1 hd h hh hs
        | some u =>
          rw [hgi] at h
          dsimp only at h
          by_cases hus : u.isSigner = true
          · rw [if_pos hus] at h
            exact ih L0 L1 hd h hh hs
          · rw [if_neg hus] at h
            have hi0 : i ≠ 0 := by
              intro hc
              subst hc
              cases L0 with
              | nil => simp at hgi
              | cons a t =>
                obtain rfl : a = u := by simpa using hgi
                have : a = hd := by simpa using hh
                exact hus (this ▸ hs)
            refine ih _ L1 hd h ?_ hs
            cases L0 with
            | nil => simp at hgi
            | cons a t =>
              cases i with
              | zero => exact absurd rfl hi0
              | succ j =>
                rw [List.set_cons_succ]
                simpa using hh

/-- On a successful compilation, the first account key is the resolved
fee payer. -/
theorem compileMessage_head (tx : Transaction) (msg : Message)
    (rb : List Nat) (fp : PubKey)
    (hrb : tx.recentBlockhash = some rb)
    (hfp : resolveFeePayer tx = .ok fp)
    (hok : tx.compileMessage = .ok msg) :
    msg.accountKeys.head? = some fp := by
  cases hfm : finalMetas tx with
  | error e =>
    unfold Transaction.compileMessage at hok
    rw [hrb] at hok
    dsimp only at hok
    rw [hfm] at hok
    exact absurd hok (by simp)
  | ok L =>
    obtain ⟨tail0, hmv, _⟩ := moveFeePayer_eq fp (uniqueMetasOf tx.instructions)
    have hflip : applySignatureFlip (moveFeePayer fp (uniqueMetasOf tx.instructions))
        tx.signatures = .ok L := by
      unfold finalMetas at hfm
      rw [hfp] at hfm
      exact hfm
    have hLhead : L.head? = some ⟨fp, true, true⟩ := by
      refine applySignatureFlip_head tx.signatures _ L ⟨fp, true, true⟩ hflip ?_ rfl
      rw [hmv]
      rfl
    obtain ⟨t, rfl⟩ : ∃ t, L = ⟨fp, true, true⟩ :: t := by
      cases L with
      | nil => simp at hLhead
      | cons a t =>
        refine ⟨t, ?_⟩
        have : a = ⟨fp, true, true⟩ := by simpa using hLhead
        rw [this]
    obtain ⟨hkeys, _, _, _, _⟩ := compileMessage_fields tx msg _ rb hrb hfm hok
    rw [hkeys, List.filter_cons]
    simp

/-- **C10**: with no explicit fee payer, `compileMessage` falls back to
the public key of the first signature pair; if the signatures list is
empty or its first entry has no public key, it fails with the
fee-payer-required error (leaving the transaction uncompiled); otherwise
any successfully compiled message has that key at account index 0. -/
theorem compileMessage_feePayer_fallback (tx : Transaction) (rb : List Nat)
    (hrb : tx.recentBlockhash = some rb) (hfp : tx.feePayer = none) :
    (tx.signatures = [] →
      tx.compileMessage = .error "Transaction fee payer required") ∧
    (∀ sig rest, tx.signatures = sig :: rest → sig.publicKey = none →
      tx.compileMessage = .error "Transaction fee payer required") ∧
    (∀ sig rest pk, tx.signatures = sig :: rest → sig.publicKey = some pk →
      ∀ msg, tx.compileMessage = .ok msg → msg.accountKeys.head? = some pk) := by
  have herr : ∀ (h : resolveFeePayer tx = .error "Transaction fee payer required"),
      tx.compileMessage = .error "Transaction fee payer required" := by
    intro h
    have hfm : finalMetas tx = .error "Transaction fee payer required" := by
      unfold finalMetas
      rw [h]
    unfold Transaction.compileMessage
    rw [hrb]
    dsimp only
    rw [hfm]
  refine ⟨?_, ?_, ?_⟩
  · intro hsig
    apply herr
    unfold resolveFeePayer
    rw [hfp, hsig]
  · intro sig rest hsig hpk
    apply herr
    unfold resolveFeePayer
    rw [hfp, hsig]
    dsimp only
    rw [hpk]
  · intro sig rest pk hsig hpk msg hok
    refine compileMessage_head tx msg rb pk hrb ?_ hok
    unfold resolveFeePayer
    rw [hfp, hsig]
    dsimp only
    rw [hpk]

def c10TxEmpty : Transaction := ⟨[], none, some [3], []⟩

def c10TxNoKey : Transaction := ⟨[⟨none, none⟩], none, some [3], []⟩

def c10TxFallback : Transaction :=
  ⟨[⟨none, some [7]⟩], none, some [3], [⟨[⟨[4], true, true⟩], [9], []⟩]⟩

theorem c10TxFallback_uniqueMetas :
    uniqueMetasOf c10TxFallback.instructions
      = [⟨[4], true, true⟩, ⟨[9], false, false⟩] := by
  unfold uniqueMetasOf
  rw [List.mergeSort_of_sorted (by decide)]
  decide

theorem c10TxFallback_finalMetas :
    finalMetas c10TxFallback
      = .ok [⟨[7], true, true⟩, ⟨[4], true, true⟩, ⟨[9], false, false⟩] := by
  unfold finalMetas
  rw [show resolveFeePayer c10TxFallback = .ok [7] from rfl]
  dsimp only
  rw [c10TxFallback_uniqueMetas]
  decide

def c10Msg : Message :=
  { header := ⟨2, 0, 1⟩
    accountKeys := [[7], [4], [9]]
    recentBlockhash := [3]
    instructions := [⟨2, [1], []⟩] }

theorem c10TxFallback_compile :
    Transaction.compileMessage c10TxFallback = .ok c10Msg := by
  unfold Transaction.compileMessage
  rw [show c10TxFallback.recentBlockhash = some [3] from rfl]
  dsimp only
  rw [c10TxFallback_finalMetas]
  dsimp only
  decide

theorem c10_witness :
    Transaction.compileMessage c10TxEmpty
      = .error "Transaction fee payer required" ∧
    Transaction.compileMessage c10TxNoKey
      = .error "Transaction fee payer required" ∧
    c10Msg.accountKeys.head? = some [7] :=
  ⟨(compileMessage_feePayer_fallback c10TxEmpty [3] rfl rfl).1 rfl,
   (compileMessage_feePayer_fallback c10TxNoKey [3] rfl rfl).2.1 ⟨none, none⟩ [] rfl rfl,
   (compileMessage_feePayer_fallback c10TxFallback [3] rfl rfl).2.2
     ⟨none, some [7]⟩ [] [7] rfl rfl c10Msg c10TxFallback_compile⟩

/-! ### Signing (`Transaction.sign` and its helpers)

The external collaborators are explicit parameters: `sd` is the detached
signer `nacl.sign.detached (signData, secretKey)` and `vf` is the verifier
`nacl.sign.detached.verify (signData, signature, publicKey)`. -/

/-- A signing account: public key plus secret key.  The secret key only
feeds the external detached-sign primitive. -/
structure Signer where
  publicKey : PubKey
  secretKey : Nat
deriving DecidableEq, Repr

/-- The `every` callback of `_compile`'s signature-reuse check, pairwise
over equal-length lists: compare each pair's public key with the compiled
signed key at the same index; `equals` on an absent key throws a
`TypeError`. -/
def checkPairs : List PubKey → List SignaturePubkeyPair → Except String Bool
  | [], [] => .ok true
  | k :: ks, p :: ps =>
    match p.publicKey with
    | none => .error "TypeError"
    | some pk => if k = pk then checkPairs ks ps else .ok false
  | _, _ => .ok false

/-- `Transaction._compile`: compile the message; if the existing signature
pairs already name exactly the compiled signed keys, keep them, otherwise
replace `signatures` with one empty slot per signed key.  Returns the
message together with the possibly-updated transaction. -/
def Transaction._compile (tx : Transaction) : Except String (Message × Transaction) :=
  match tx.compileMessage with
  | .error e => .error e
  | .ok message =>
    let signedKeys := message.accountKeys.take message.header.numRequiredSignatures
    if tx.signatures.length = signedKeys.length then
      match checkPairs signedKeys tx.signatures with
      | .error e => .error e
      | .ok true => .ok (message, tx)
      | .ok false =>
        .ok (message,
          { tx with signatures := signedKeys.map (fun publicKey => ⟨none, some publicKey⟩) })
    else
      .ok (message,
        { tx with signatures := signedKeys.map (fun publicKey => ⟨none, some publicKey⟩) })

/-- The `findIndex` of `_addSignature`: index of the first pair whose
public key equals `pubkey`; a pair with an absent key makes the `equals`
call throw a `TypeError`. -/
def findSigIndex (pubkey : PubKey) : List SignaturePubkeyPair → Except String (Option Nat)
  | [] => .ok none
  | p :: ps =>
    match p.publicKey with
    | none => .error "TypeError"
    | some pk =>
      if pk = pubkey then .ok (some 0)
      else
        match findSigIndex pubkey ps with
        | .error e => .error e
        | .ok none => .ok none
        | .ok (some i) => .ok (some (i + 1))

/-- `Transaction._addSignature`: assert a 64-byte signature, find the pair
for the key (a key not among the slots is the unknown-signer error), and
store the signature there.  The inner `match` on `[i]?` is only for
totality. -/
def Transaction._addSignature (pubkey : PubKey) (signature : List Nat)
    (tx : Transaction) : Except String Transaction :=
  if signature.length = 64 then
    match findSigIndex pubkey tx.signatures with
    | .error e => .error e
    | .ok none => .error "unknown signer"
    | .ok (some i) =>
      match tx.signatures[i]? with
      | some pair =>
        .ok { tx with
          signatures := tx.signatures.set i { pair with signature := some signature } }
      | none => .ok tx
  else .error "Assertion failed"

/-- `Transaction._partialSign`: serialize the message, then for each
signer in order produce a detached signature and store it in that
signer's slot. -/
def Transaction._partialSign (sd : List Nat → Nat → List Nat) (message : Message)
    (tx : Transaction) : List Signer → Except String Transaction
  | [] => .ok tx
  | signer :: rest =>
    match Transaction._addSignature signer.publicKey
        (sd message.serialize signer.secretKey) tx with
    | .error e => .error e
    | .ok tx' => Transaction._partialSign sd message tx' rest

/-- `Transaction._verifySignatures` over a pair list: a missing signature
fails when all are required and is skipped otherwise; a present signature
is checked by the external verifier; a pair carrying a signature but no
public key throws a `TypeError` from `publicKey.toBuffer()`. -/
def Transaction._verifySignatures (vf : List Nat → List Nat → PubKey → Bool)
    (signData : List Nat) (requireAllSignatures : Bool) :
    List SignaturePubkeyPair → Except String Bool
  | [] => .ok true
  | p :: ps =>
    match p.signature with
    | none =>
      if requireAllSignatures then .ok false
      else Transaction._verifySignatures vf signData requireAllSignatures ps
    | some s =>
      match p.publicKey with
      | none => .error "TypeError"
      | some pk =>
        if vf signData s pk then
          Transaction._verifySignatures vf signData requireAllSignatures ps
        else .ok false

/-- The signer-dedupe loop of `sign`: keep the first signer seen for each
public key. -/
def dedupeSigners (signers : List Signer) : List Signer :=
  signers.foldl
    (fun uniqueSigners signer =>
      if uniqueSigners.any (fun s => s.publicKey = signer.publicKey) then uniqueSigners
      else uniqueSigners ++ [signer]) []

/-- `Transaction.sign`: dedupe the signers, reset the signature slots to
one empty pair per unique signer, compile, sign every slot, then run
`_verifySignatures (message.serialize (), true)` — whose boolean verdict
the source discards: the method returns normally either way, so only a
thrown error (a `TypeError` from a malformed pair) can surface. -/
def Transaction.sign (sd : List Nat → Nat → List Nat)
    (vf : List Nat → List Nat → PubKey → Bool)
    (tx : Transaction) (signers : List Signer) : Except String Transaction :=
  if signers.length = 0 then .error "No signers"
  else
    let uniqueSigners := dedupeSigners signers
    let tx1 : Transaction :=
      { tx with
        signatures := uniqueSigners.map (fun signer => ⟨none, some signer.publicKey⟩) }
    match Transaction._compile tx1 with
    | .error e => .error e
    | .ok (message, tx2) =>
      match Transaction._partialSign sd message tx2 uniqueSigners with
      | .error e => .error e
      | .ok tx3 =>
        match Transaction._verifySignatures vf message.serialize true tx3.signatures with
        | .error e => .error e
        | .ok _ => .ok tx3

/-- Unfolding lemma for `Transaction.sign` on a successful run, phrased
against named intermediate results so concrete runs can be assembled from
separately proved steps. -/
theorem sign_eq (sd : List Nat → Nat → List Nat)
    (vf : List Nat → List Nat → PubKey → Bool)
    (tx : Transaction) (signers : List Signer)
    (message : Message) (tx2 tx3 : Transaction) (b : Bool)
    (h0 : ¬ signers.length = 0)
    (h1 : Transaction._compile
        { tx with
          signatures := (dedupeSigners signers).map
            (fun signer => ⟨none, some signer.publicKey⟩) } = .ok (message, tx2))
    (h2 : Transaction._partialSign sd message tx2 (dedupeSigners signers) = .ok tx3)
    (h3 : Transaction._verifySignatures vf message.serialize true tx3.signatures = .ok b) :
    Transaction.sign sd vf tx signers = .ok tx3 := by
  unfold Transaction.sign
  rw [if_neg h0]
  dsimp only
  rw [h1]
  dsimp only
  rw [h2]
  dsimp only
  rw [h3]

/-- `_compile` keeps every signature slot's public key present when the
input slots all have one (a fresh slot list always does). -/
theorem compile_pk_some (tx : Transaction) (message : Message) (tx2 : Transaction)
    (h : Transaction._compile tx = .ok (message, tx2))
    (hin : ∀ p ∈ tx.signatures, p.publicKey.isSome) :
    ∀ p ∈ tx2.signatures, p.publicKey.isSome := by
  unfold Transaction._compile at h
  cases hcm : tx.compileMessage with
  | error e => rw [hcm] at h; exact absurd h (by simp)
  | ok msg =>
    rw [hcm] at h
    dsimp only at h
    by_cases hlen :
        tx.signatures.length = (msg.accountKeys.take msg.header.numRequiredSignatures).length
    · rw [if_pos hlen] at h
      cases hcp : checkPairs (msg.accountKeys.take msg.header.numRequiredSignatures)
          tx.signatures with
      | error e => rw [hcp] at h; exact absurd h (by simp)
      | ok bb =>
        rw [hcp] at h
        cases bb with
        | true =>
          dsimp only at h
          injection h with h'
          injection h' with hm ht
          intro p hp
          exact hin p (ht ▸ hp)
        | false =>
          dsimp only at h
          injection h with h'
          injection h' with hm ht
          intro p hp
          rw [← ht] at hp
          simp only [Transaction.signatures] at hp
          obtain ⟨k, _, hk⟩ := List.mem_map.mp hp
          rw [← hk]
          rfl
    · rw [if_neg hlen] at h
      injection h with h'
      injection h' with hm ht
      intro p hp
      rw [← ht] at hp
      simp only [Transaction.signatures] at hp
      obtain ⟨k, _, hk⟩ := List.mem_map.mp hp
      rw [← hk]
      rfl

/-- `_addSignature` never changes a slot's public key. -/
theorem addSignature_pk_some (pubkey : PubKey) (signature : List Nat)
    (tx tx' : Transaction)
    (h : Transaction._addSignature pubkey signature tx = .ok tx')
    (hin : ∀ p ∈ tx.signatures, p.publicKey.isSome) :
    ∀ p ∈ tx'.signatures, p.publicKey.isSome := by
  unfold Transaction._addSignature at h
  by_cases hlen : signature.length = 64
  · rw [if_pos hlen] at h
    cases hfi : findSigIndex pubkey tx.signatures with
    | error e => rw [hfi] at h; exact absurd h (by simp)
    | ok oi =>
      rw [hfi] at h
      cases oi with
      | none => exact absurd h (by simp)
      | some i =>
        dsimp only at h
        cases hgi : tx.signatures[i]? with
        | none => rw [hgi] at h; injection h with h'; rw [← h']; exact hin
        | some pair =>
          rw [hgi] at h
          injection h with h'
          intro p hp
          rw [← h'] at hp
          simp only [Transaction.signatures] at hp
          rcases List.mem_or_eq_of_mem_set hp with hmem | heq
          · exact hin p hmem
          · rw [heq]
            exact hin pair (List.getElem?_mem hgi)
  · rw [if_neg hlen] at h
    exact absurd h (by simp)

/-- `_partialSign` never changes a slot's public key. -/
theorem partialSign_pk_some (sd : List Nat → Nat → List Nat) (message : Message) :
    ∀ (signers : List Signer) (tx tx' : Transaction),
    Transaction._partialSign sd message tx signers = .ok tx' →
    (∀ p ∈ tx.signatures, p.publicKey.isSome) →
    ∀ p ∈ tx'.signatures, p.publicKey.isSome := by
  intro signers
  induction signers with
  | nil =>
    intro tx tx' h hin
    injection h with h'
    rw [← h']
    exact hin
  | cons signer rest ih =>
    intro tx tx' h hin
    unfold Transaction._partialSign at h
    cases ha : Transaction._addSignature signer.publicKey
        (sd message.serialize signer.secretKey) tx with
    | error e => rw [ha] at h; exact absurd h (by simp)
    | ok txa =>
      rw [ha] at h
      dsimp only at h
      exact ih txa tx' h (addSignature_pk_some _ _ _ _ ha hin)

/-- With every slot's public key present, the verification pass cannot
throw: it always returns a boolean verdict. -/
theorem verifySignatures_ok (vf : List Nat → List Nat → PubKey → Bool)
    (signData : List Nat) (requireAllSignatures : Bool) :
    ∀ (pairs : List SignaturePubkeyPair),
    (∀ p ∈ pairs, p.publicKey.isSome) →
    ∃ b, Transaction._verifySignatures vf signData requireAllSignatures pairs = .ok b := by
  intro pairs
  induction pairs with
  | nil => intro _; exact ⟨true, rfl⟩
  | cons p ps ih =>
    intro hin
    have hps : ∀ q ∈ ps, q.publicKey.isSome :=
      fun q hq => hin q (List.mem_cons_of_mem p hq)
    unfold Transaction._verifySignatures
    cases hs : p.signature with
    | none =>
      dsimp only
      by_cases hr : requireAllSignatures = true
      · rw [if_pos hr]
        exact ⟨false, rfl⟩
      · rw [if_neg hr]
        exact ih hps
    | some s =>
      dsimp only
      cases hpk : p.publicKey with
      | none =>
        have := hin p (List.mem_cons_self p ps)
        rw [hpk] at this
        exact absurd this (by simp)
      | some pk =>
        dsimp only
        by_cases hv : vf signData s pk = true
        · rw [if_pos hv]
          exact ih hps
        · rw [if_neg hv]
          exact ⟨false, rfl⟩

/-- **C4** (amended): `sign` runs the verification pass but discards its
boolean verdict, so its outcome — the signed transaction on success, or an
error from an earlier stage — is the same for any verification function:
an invalid or missing signature is never surfaced.  (Every slot `sign`
builds carries a public key, so the pass cannot even throw a `TypeError`.) -/
theorem sign_ignores_verification (sd : List Nat → Nat → List Nat)
    (vf₁ vf₂ : List Nat → List Nat → PubKey → Bool)
    (tx : Transaction) (signers : List Signer) :
    Transaction.sign sd vf₁ tx signers = Transaction.sign sd vf₂ tx signers := by
  unfold Transaction.sign
  by_cases h0 : signers.length = 0
  · rw [if_pos h0, if_pos h0]
  · rw [if_neg h0, if_neg h0]
    dsimp only
    cases hC : Transaction._compile
        { tx with
          signatures := (dedupeSigners signers).map
            (fun signer => ⟨none, some signer.publicKey⟩) } with
    | error e => rfl
    | ok p =>
      obtain ⟨message, tx2⟩ := p
      dsimp only
      have hin1 : ∀ q ∈ (Transaction.mk
          ((dedupeSigners signers).map (fun signer => ⟨none, some signer.publicKey⟩))
          tx.feePayer tx.recentBlockhash tx.instructions).signatures,
          q.publicKey.isSome := by
        intro q hq
        simp only [Transaction.signatures] at hq
        obtain ⟨k, _, hk⟩ := List.mem_map.mp hq
        rw [← hk]
        rfl
      have hin2 : ∀ q ∈ tx2.signatures, q.publicKey.isSome :=
        compile_pk_some _ message tx2 hC hin1
      cases hP : Transaction._partialSign sd message tx2 (dedupeSigners signers) with
      | error e => rfl
      | ok tx3 =>
        dsimp only
        have hin3 : ∀ q ∈ tx3.signatures, q.publicKey.isSome :=
          partialSign_pk_some sd message (dedupeSigners signers) tx2 tx3 hP hin2
        obtain ⟨b₁, hb₁⟩ :=
          verifySignatures_ok vf₁ message.serialize true tx3.signatures hin3
        obtain ⟨b₂, hb₂⟩ :=
          verifySignatures_ok vf₂ message.serialize true tx3.signatures hin3
        rw [hb₁, hb₂]

/-- Example detached signer: 64 copies of the secret key (the sign data is
ignored, so no real transaction bytes are needed to exercise the flow). -/
def c4Sd (_ : List Nat) (sk : Nat) : List Nat := List.replicate 64 sk

/-- Example verifier matching `c4Sd` only when the secret key equals the
first byte of the public key: a signature is valid iff it is 64 copies of
that byte. -/
def c4Vf (_ : List Nat) (sig : List Nat) (pk : PubKey) : Bool :=
  sig == List.replicate 64 (pk.headD 0)

/-- A transaction signed by the mismatched signer `⟨[7], 9⟩`: fee payer
`[7]`, one instruction with no account metas on program `[9]`. -/
def c4Tx : Transaction := ⟨[], some [7], some [3], [⟨[], [9], []⟩]⟩

/-- `c4Tx` after `sign` resets the slots for the unique signer `[7]`. -/
def c4Tx1 : Transaction := ⟨[⟨none, some [7]⟩], some [7], some [3], [⟨[], [9], []⟩]⟩

/-- The message `c4Tx1` compiles to. -/
def c4Msg : Message := ⟨⟨1, 0, 1⟩, [[7], [9]], [3], [⟨1, [], []⟩]⟩

/-- `c4Tx` after the full `sign` run: the slot for `[7]` holds the
signature `c4Sd` produced from secret key `9`. -/
def c4TxSigned : Transaction :=
  ⟨[⟨some (List.replicate 64 9), some [7]⟩], some [7], some [3], [⟨[], [9], []⟩]⟩

theorem c4Tx1_uniqueMetas : uniqueMetasOf c4Tx1.instructions = [⟨[9], false, false⟩] := by
  unfold uniqueMetasOf
  rw [List.mergeSort_of_sorted (by decide)]
  decide

theorem c4Tx1_finalMetas :
    finalMetas c4Tx1 = .ok [⟨[7], true, true⟩, ⟨[9], false, false⟩] := by
  unfold finalMetas
  rw [show resolveFeePayer c4Tx1 = .ok [7] from rfl]
  dsimp only
  rw [c4Tx1_uniqueMetas]
  decide

theorem c4Tx1_compileMessage : Transaction.compileMessage c4Tx1 = .ok c4Msg := by
  unfold Transaction.compileMessage
  rw [show c4Tx1.recentBlockhash = some [3] from rfl]
  dsimp only
  rw [c4Tx1_finalMetas]
  dsimp only
  decide

theorem c4Tx1_compile : Transaction._compile c4Tx1 = .ok (c4Msg, c4Tx1) := by
  unfold Transaction._compile
  rw [c4Tx1_compileMessage]
  dsimp only
  decide

theorem c4_sign : Transaction.sign c4Sd c4Vf c4Tx [⟨[7], 9⟩] = .ok c4TxSigned :=
  sign_eq c4Sd c4Vf c4Tx [⟨[7], 9⟩] c4Msg c4Tx1 c4TxSigned false
    (by decide) c4Tx1_compile (by decide) (by decide)

/-- **C4, counterexample**: signing `c4Tx` with the signer `⟨[7], 9⟩`,
whose signatures the verifier rejects, still returns the signed
transaction successfully — even though the verification pass `sign` itself
runs over the final slots returns the failing verdict `false`.  No
signature-verification error is raised and no failure is reported. -/
theorem c4_counterexample :
    Transaction.sign c4Sd c4Vf c4Tx [⟨[7], 9⟩] = .ok c4TxSigned ∧
    Transaction._verifySignatures c4Vf c4Msg.serialize true c4TxSigned.signatures
      = .ok false :=
  ⟨c4_sign, by decide⟩

/-- **C4, witness**: the amended theorem at concrete inputs — an
always-accepting and an always-rejecting verifier give the same `sign`
result. -/
theorem c4_witness :
    Transaction.sign c4Sd (fun _ _ _ => true) c4Tx [⟨[7], 9⟩]
      = Transaction.sign c4Sd (fun _ _ _ => false) c4Tx [⟨[7], 9⟩] :=
  sign_ignores_verification c4Sd (fun _ _ _ => true) (fun _ _ _ => false) c4Tx [⟨[7], 9⟩]

/-! ### The HTTP request channel's rate-limit retry loop

`resp j` is the HTTP status line of the `j`-th fetch of one logical
request (the network is an external collaborator).  The loop state is the
remaining `too_many_requests_retries` budget, the next attempt index, the
current `waitTime`, and the sleeps performed so far; the result is the
final status, the number of fetches performed, and the sleep list. -/

/-- The `for (;;)` fetch loop of `createRpcClient`: break on any status
other than 429; break immediately on 429 when retry-on-rate-limit is
disabled; otherwise decrement the budget, breaking when it reaches zero,
else sleep `waitTime` and double it.  The budget is matched before the
decrement, so `retries + 1` here is the JS counter value; the `0` case is
unreachable from the entry budget of 5 (the JS counter would go negative). -/
def rpcFetchLoop (resp : Nat → Nat) (disableRetryOnRateLimit : Bool) :
    Nat → Nat → Nat → List Nat → Nat × Nat × List Nat
  | retries, attempt, waitTime, sleeps =>
    if resp attempt ≠ 429 then (resp attempt, attempt + 1, sleeps)
    else if disableRetryOnRateLimit then (resp attempt, attempt + 1, sleeps)
    else
      match retries with
      | 0 => (resp attempt, attempt + 1, sleeps)
      | 1 => (resp attempt, attempt + 1, sleeps)
      | r + 2 =>
        rpcFetchLoop resp disableRetryOnRateLimit (r + 1) (attempt + 1) (waitTime * 2)
          (sleeps ++ [waitTime])

/-- One logical request: the loop entered with
`too_many_requests_retries = 5` and `waitTime = 500`. -/
def rpcClientRequest (resp : Nat → Nat) (disableRetryOnRateLimit : Bool) :
    Nat × Nat × List Nat :=
  rpcFetchLoop resp disableRetryOnRateLimit 5 0 500 []

/-- The surfacing after the loop: `res.ok` (a 2xx status) passes the body
to the callback, anything else becomes an `Error` carrying the final
status. -/
def rpcResponse (resp : Nat → Nat) (disableRetryOnRateLimit : Bool) : Except Nat Nat :=
  let r := rpcClientRequest resp disableRetryOnRateLimit
  if 200 ≤ r.1 ∧ r.1 ≤ 299 then .ok r.1 else .error r.1

/-- The loop with budget `r`, first non-429 status at relative attempt
`k < r`: it sleeps `k` times, doubling from `waitTime`, and returns that
status after `k + 1` fetches. -/
theorem rpcFetchLoop_early (resp : Nat → Nat) :
    ∀ (k r attempt waitTime : Nat) (sleeps : List Nat),
    (∀ j, j < k → resp (attempt + j) = 429) → resp (attempt + k) ≠ 429 → k < r →
    rpcFetchLoop resp false r attempt waitTime sleeps
      = (resp (attempt + k), attempt + k + 1,
         sleeps ++ (List.range k).map (fun i => waitTime * 2 ^ i)) := by
  intro k
  induction k with
  | zero =>
    intro r attempt waitTime sleeps _ hne _
    rw [Nat.add_zero] at hne
    unfold rpcFetchLoop
    rw [if_pos hne]
    simp
  | succ k ih =>
    intro r attempt waitTime sleeps h429 hne hkr
    have h0 : resp (attempt + 0) = 429 := h429 0 (Nat.succ_pos k)
    rw [Nat.add_zero] at h0
    obtain ⟨r2, rfl⟩ : ∃ r2, r = r2 + 2 := ⟨r - 2, by omega⟩
    unfold rpcFetchLoop
    rw [if_neg (by rw [h0]; exact fun hc => hc rfl)]
    rw [if_neg (by exact fun hc => Bool.false_ne_true hc)]
    dsimp only
    have ih' := ih (r2 + 1) (attempt + 1) (waitTime * 2) (sleeps ++ [waitTime])
      (fun j hj => by rw [Nat.add_right_comm]; exact h429 (j + 1) (by omega))
      (by rw [Nat.add_right_comm]; exact hne) (by omega)
    rw [ih']
    have harith : attempt + 1 + k = attempt + (k + 1) := by omega
    rw [harith]
    refine congrArg _ (congrArg _ ?_)
    rw [List.append_assoc, List.singleton_append]
    refine congrArg _ ?_
    rw [List.range_succ_eq_map, List.map_cons, List.map_map]
    refine congrArg₂ _ (by ring) ?_
    refine List.map_congr_left ?_
    intro i _
    simp only [Function.comp_apply]
    rw [pow_succ]
    ring

/-- **C9** (amended): on rate-limit responses the loop retries at most 4
times — 5 fetches in total — sleeping before each retry with delays 500,
1000, 2000, 4000 ms (the budget counter starting at 5 is decremented
before the zero test, so the fifth 429 breaks without a fifth sleep); the
first non-429 status within the budget is returned after exactly the
preceding sleeps; with retry-on-rate-limit disabled a 429 is returned
after a single fetch and no sleep; and a non-429 non-2xx status surfaces
as an error immediately after one fetch. -/
theorem rpc_rate_limit_retry (resp : Nat → Nat) :
    ((∀ j, j < 5 → resp j = 429) →
      rpcClientRequest resp false = (429, 5, [500, 1000, 2000, 4000])) ∧
    (∀ k, k ≤ 4 → (∀ j, j < k → resp j = 429) → resp k ≠ 429 →
      rpcClientRequest resp false
        = (resp k, k + 1, (List.range k).map (fun i => 500 * 2 ^ i))) ∧
    (resp 0 = 429 → rpcClientRequest resp true = (429, 1, [])) ∧
    (resp 0 ≠ 429 → ¬ (200 ≤ resp 0 ∧ resp 0 ≤ 299) →
      rpcResponse resp false = .error (resp 0) ∧
      (rpcClientRequest resp false).2.1 = 1) := by
  have hearly0 : rpcFetchLoop resp false 5 0 500 [] = rpcClientRequest resp false := rfl
  refine ⟨?_, ?_, ?_, ?_⟩
  · intro h
    have h0 := h 0 (by omega)
    have h1 := h 1 (by omega)
    have h2 := h 2 (by omega)
    have h3 := h 3 (by omega)
    have h4 := h 4 (by omega)
    simp [rpcClientRequest, rpcFetchLoop, h0, h1, h2, h3, h4]
  · intro k hk h429 hne
    have he := rpcFetchLoop_early resp k 5 0 500 []
      (fun j hj => by rw [Nat.zero_add]; exact h429 j hj)
      (by rw [Nat.zero_add]; exact hne) (by omega)
    unfold rpcClientRequest
    rw [he]
    simp
  · intro h0
    unfold rpcClientRequest
    unfold rpcFetchLoop
    rw [if_neg (by rw [h0]; exact fun hc => hc rfl)]
    rw [if_pos rfl, h0]
  · intro hne hnok
    have he := rpcFetchLoop_early resp 0 5 0 500 []
      (fun j hj => absurd hj (by omega)) (by rw [Nat.add_zero]; exact hne) (by omega)
    simp only [Nat.add_zero, Nat.zero_add, List.range_zero, List.map_nil,
      List.append_nil, List.nil_append] at he
    constructor
    · simp only [rpcResponse, rpcClientRequest, he]
      rw [if_neg hnok]
    · simp only [rpcClientRequest, he]

/-- **C9, counterexample**: with every fetch rate-limited and retries
enabled, one logical request performs 5 fetches in total with only 4
sleeps (500, 1000, 2000, 4000 ms) before giving up — not the claimed 5
retries each preceded by a sleep (which would be 6 fetches and 5 sleeps). -/
theorem c9_counterexample :
    rpcClientRequest (fun _ => 429) false = (429, 5, [500, 1000, 2000, 4000]) ∧
    (rpcClientRequest (fun _ => 429) false).2.2.length = 4 ∧
    ¬ (rpcClientRequest (fun _ => 429) false).2.2.length = 5 ∧
    ¬ (rpcClientRequest (fun _ => 429) false).2.1 = 6 := by
  refine ⟨by decide, by decide, by decide, by decide⟩

/-- **C9, witness**: a request rate-limited twice and then succeeding
performs 3 fetches with sleeps of 500 and 1000 ms and returns the 200. -/
theorem c9_witness :
    rpcClientRequest (fun j => if j < 2 then 429 else 200) false = (200, 3, [500, 1000]) := by
  have h := (rpc_rate_limit_retry (fun j => if j < 2 then 429 else 200)).2.1 2
    (by omega) (by decide) (by decide)
  rw [h]
  decide

/-! ### Websocket close handling and subscription resets -/

/-- A remote subscription token: absent (`null`), mid-handshake
(`'subscribing'`), or a confirmed numeric server id. -/
inductive SubToken where
  | null
  | subscribing
  | active (id : Nat)
deriving DecidableEq, Repr

/-- The per-family subscription tables of a `Connection`, reduced to what
the close/reconnect logic manipulates: each live local subscription id
paired with its remote token.  The seven families are the seven
`_*Subscriptions` maps. -/
structure SubscriptionsState where
  accountChangeSubscriptions : List (Nat × SubToken)
  programAccountChangeSubscriptions : List (Nat × SubToken)
  rootSubscriptions : List (Nat × SubToken)
  signatureSubscriptions : List (Nat × SubToken)
  slotSubscriptions : List (Nat × SubToken)
  slotUpdateSubscriptions : List (Nat × SubToken)
  logsSubscriptions : List (Nat × SubToken)
deriving DecidableEq, Repr

/-- `Object.values(...).forEach(s => s.subscriptionId = null)` on one
family: every record kept, every token cleared. -/
def clearTokens (l : List (Nat × SubToken)) : List (Nat × SubToken) :=
  l.map (fun s => (s.1, SubToken.null))

/-- `_resetSubscriptions`, statement for statement: the six `forEach`
lines clear the account-change, program-account-change, root, signature,
slot and slot-update families; the function body contains no statement
for `_logsSubscriptions`. -/
def resetSubscriptions (st : SubscriptionsState) : SubscriptionsState :=
  { st with
    accountChangeSubscriptions := clearTokens st.accountChangeSubscriptions
    programAccountChangeSubscriptions := clearTokens st.programAccountChangeSubscriptions
    rootSubscriptions := clearTokens st.rootSubscriptions
    signatureSubscriptions := clearTokens st.signatureSubscriptions
    slotSubscriptions := clearTokens st.slotSubscriptions
    slotUpdateSubscriptions := clearTokens st.slotUpdateSubscriptions }

/-- The ids in one family for which a resync issues a subscribe request:
`_subscribe` only sends when the token is `null` (`subscriptionId == null`
matches both `null` and `undefined`). -/
def resubscribedIds (l : List (Nat × SubToken)) : List Nat :=
  (l.filter (fun s => s.2 = SubToken.null)).map (fun s => s.1)

/-- The subscribe requests one resync (`_updateSubscriptions` on a
connected socket) issues, as (family, id) pairs in the order of its seven
`for` loops: account-change 0, program-account-change 1, slot 2,
slot-update 3, signature 4, root 5, logs 6. -/
def subscribeCalls (st : SubscriptionsState) : List (Nat × Nat) :=
  (resubscribedIds st.accountChangeSubscriptions).map (fun i => (0, i)) ++
  (resubscribedIds st.programAccountChangeSubscriptions).map (fun i => (1, i)) ++
  (resubscribedIds st.slotSubscriptions).map (fun i => (2, i)) ++
  (resubscribedIds st.slotUpdateSubscriptions).map (fun i => (3, i)) ++
  (resubscribedIds st.signatureSubscriptions).map (fun i => (4, i)) ++
  (resubscribedIds st.rootSubscriptions).map (fun i => (5, i)) ++
  (resubscribedIds st.logsSubscriptions).map (fun i => (6, i))

/-- `_wsOnClose` as a state transformer on the subscription tables: a
normal close (code 1000) only triggers a resync and leaves every token
untouched; any other code runs `_resetSubscriptions` to prepare the
auto-reconnect (heartbeat bookkeeping is not modelled). -/
def wsOnClose (code : Nat) (st : SubscriptionsState) : SubscriptionsState :=
  if code = 1000 then st else resetSubscriptions st

/-- Three live subscriptions with confirmed tokens: account-change id 1,
slot id 2, logs id 3. -/
def c7St : SubscriptionsState :=
  ⟨[(1, .active 10)], [], [], [], [(2, .active 11)], [], [(3, .active 12)]⟩

/-- **C7**: after the abnormal close (code 1006) of `c7St` — three live
subscriptions: one account-change, one slot, one logs — the account-change
and slot tokens are cleared to `null` and re-subscribed by the resync, but
the logs token is left at its stale server id 12, so the resync issues
only 2 subscribe calls, not 3: the logs subscription is never
re-established, contradicting the claim that every family's token is
reset.  A normal close (code 1000) leaves the state untouched, as
claimed. -/
theorem c7_logs_not_reset :
    (wsOnClose 1006 c7St).accountChangeSubscriptions = [(1, SubToken.null)] ∧
    (wsOnClose 1006 c7St).slotSubscriptions = [(2, SubToken.null)] ∧
    (wsOnClose 1006 c7St).logsSubscriptions = [(3, SubToken.active 12)] ∧
    subscribeCalls (wsOnClose 1006 c7St) = [(0, 1), (2, 2)] ∧
    ¬ (subscribeCalls (wsOnClose 1006 c7St)).length = 3 ∧
    wsOnClose 1000 c7St = c7St :=
  ⟨by decide, by decide, by decide, by decide, by decide, by decide⟩

/-! ### The durable client's blockhash cache and duplicate avoidance

`node k` is the blockhash the `k`-th `getRecentBlockhash` RPC of this
client returns (the remote node is an external collaborator, indexed by a
fetch counter in the state); `sigOf bh` is the primary signature signing
the fixed transaction with the fixed signers produces under recent
blockhash `bh` (detached ed25519 signing is deterministic).  `now` is the
clock reading; sleeps are not modelled, so time does not advance inside a
call. -/

/-- `this._blockhashInfo`. -/
structure BlockhashInfo where
  recentBlockhash : Option (List Nat)
  lastFetch : Nat
  transactionSignatures : List (List Nat)
  simulatedSignatures : List (List Nat)
deriving DecidableEq, Repr

/-- The cache state plus the fetch counter indexing `node`. -/
structure ClientState where
  blockhashInfo : BlockhashInfo
  fetchCount : Nat
deriving DecidableEq, Repr

/-- `BLOCKHASH_CACHE_TIMEOUT_MS = 30 * 1000`. -/
def BLOCKHASH_CACHE_TIMEOUT_MS : Nat := 30000

/-- The `for (let i = 0; i < 50; i++)` body of `_pollNewBlockhash`: fetch;
if the fetched hash differs from the cached one (`!=`, so an empty cache
always differs), replace the whole cache — fresh `lastFetch`, EMPTY
signature sets — and return it; else sleep half a slot and go round. -/
def pollNewBlockhashGo (node : Nat → List Nat) (now : Nat) :
    Nat → ClientState → Except String (List Nat × ClientState)
  | 0, _ => .error "Unable to obtain a new blockhash"
  | fuel + 1, st =>
    let blockhash := node st.fetchCount
    let st1 : ClientState := { st with fetchCount := st.fetchCount + 1 }
    if st1.blockhashInfo.recentBlockhash ≠ some blockhash then
      .ok (blockhash, { st1 with blockhashInfo := ⟨some blockhash, now, [], []⟩ })
    else
      pollNewBlockhashGo node now fuel st1

/-- `_pollNewBlockhash`: up to 50 fetches, else the
unable-to-obtain-a-new-blockhash error. -/
def pollNewBlockhash (node : Nat → List Nat) (now : Nat) (st : ClientState) :
    Except String (List Nat × ClientState) :=
  pollNewBlockhashGo node now 50 st

/-- `_recentBlockhash`: with caching enabled, return the cached hash when
present and younger than `BLOCKHASH_CACHE_TIMEOUT_MS`; in every other
case poll for a new one. -/
def recentBlockhash (node : Nat → List Nat) (now : Nat) (disableCache : Bool)
    (st : ClientState) : Except String (List Nat × ClientState) :=
  if disableCache then pollNewBlockhash node now st
  else
    match st.blockhashInfo.recentBlockhash with
    | some bh =>
      if BLOCKHASH_CACHE_TIMEOUT_MS ≤ now - st.blockhashInfo.lastFetch then
        pollNewBlockhash node now st
      else .ok (bh, st)
    | none => pollNewBlockhash node now st

/-- The `for (;;)` loop of `sendTransaction` (non-nonce path): take the
current token, sign, and if the resulting signature was already sent
under this token, loop again with the cache disabled (forcing a fresh
token); otherwise record the signature and submit.  The JS loop is
unbounded; `fuel` only bounds the model and the theorems below run well
within it.  The result is the primary signature, the token it was signed
with, and the new state. -/
def sendTransactionGo (node : Nat → List Nat) (sigOf : List Nat → List Nat)
    (now : Nat) : Nat → Bool → ClientState →
    Except String (List Nat × List Nat × ClientState)
  | 0, _, _ => .error "fuel exhausted"
  | fuel + 1, disableCache, st =>
    match recentBlockhash node now disableCache st with
    | .error e => .error e
    | .ok (bh, st1) =>
      let signature := sigOf bh
      if signature ∈ st1.blockhashInfo.transactionSignatures then
        sendTransactionGo node sigOf now fuel true st1
      else
        .ok (signature, bh,
          { st1 with blockhashInfo :=
              { st1.blockhashInfo with
                transactionSignatures :=
                  st1.blockhashInfo.transactionSignatures ++ [signature] } })

/-- `sendTransaction` enters the loop with the instance default
`_disableBlockhashCaching = false`. -/
def sendTransaction (node : Nat → List Nat) (sigOf : List Nat → List Nat)
    (now : Nat) (fuel : Nat) (st : ClientState) :
    Except String (List Nat × List Nat × ClientState) :=
  sendTransactionGo node sigOf now fuel false st

/-- **C8**: two back-to-back `sendTransaction` calls with identical
instructions, signer and cached token.  From a state whose cached token
`b₀` is fresh and whose sent-signature set is empty, the first call signs
with `b₀` without fetching and records `sigOf b₀`.  The second call signs
with the cached `b₀` again, finds the signature already recorded, loops
with the cache disabled — forcing a fetch that yields the node's current
hash `node c ≠ b₀` and resets the signature sets — and submits under the
new token: the two submissions carry different primary signatures. -/
theorem sendTransaction_dedup (node : Nat → List Nat) (sigOf : List Nat → List Nat)
    (now lastFetch c : Nat) (b₀ : List Nat)
    (hfresh : now - lastFetch < BLOCKHASH_CACHE_TIMEOUT_MS)
    (hnode : node c ≠ b₀)
    (hsig : sigOf (node c) ≠ sigOf b₀) :
    sendTransaction node sigOf now 1 ⟨⟨some b₀, lastFetch, [], []⟩, c⟩
      = .ok (sigOf b₀, b₀, ⟨⟨some b₀, lastFetch, [sigOf b₀], []⟩, c⟩) ∧
    sendTransaction node sigOf now 2 ⟨⟨some b₀, lastFetch, [sigOf b₀], []⟩, c⟩
      = .ok (sigOf (node c), node c,
          ⟨⟨some (node c), now, [sigOf (node c)], []⟩, c + 1⟩) ∧
    sigOf (node c) ≠ sigOf b₀ := by
  have hcache : ∀ sigs : List (List Nat),
      recentBlockhash node now false ⟨⟨some b₀, lastFetch, sigs, []⟩, c⟩
        = .ok (b₀, ⟨⟨some b₀, lastFetch, sigs, []⟩, c⟩) := by
    intro sigs
    unfold recentBlockhash
    rw [if_neg (fun hc => Bool.false_ne_true hc)]
    dsimp only
    rw [if_neg (by omega)]
  have hpoll : pollNewBlockhash node now ⟨⟨some b₀, lastFetch, [sigOf b₀], []⟩, c⟩
      = .ok (node c, ⟨⟨some (node c), now, [], []⟩, c + 1⟩) := by
    have hne2 : (some b₀ : Option (List Nat)) ≠ some (node c) := by
      intro hc
      injection hc with hc'
      exact hnode hc'.symm
    unfold pollNewBlockhash pollNewBlockhashGo
    dsimp only
    rw [if_pos hne2]
  refine ⟨?_, ?_, hsig⟩
  · unfold sendTransaction sendTransactionGo
    rw [hcache []]
    dsimp only
    rw [if_neg (by simp)]
    rw [List.nil_append]
  · unfold sendTransaction sendTransactionGo
    rw [hcache [sigOf b₀]]
    dsimp only
    rw [if_pos (by simp)]
    unfold sendTransactionGo recentBlockhash
    rw [if_pos rfl]
    rw [hpoll]
    dsimp only
    rw [if_neg (by simp)]
    rw [List.nil_append]

/-- **C8, witness**: the theorem at a concrete client — node hash `[5]`,
identity signature function, cached token `[4]` fetched at 90 and reused
at 100: the first submission signs `[4]`, the second is forced onto the
fresh token `[5]` and carries a different signature. -/
theorem c8_witness :
    sendTransaction (fun _ => [5]) (fun h => h) 100 1 ⟨⟨some [4], 90, [], []⟩, 0⟩
      = .ok ([4], [4], ⟨⟨some [4], 90, [[4]], []⟩, 0⟩) ∧
    sendTransaction (fun _ => [5]) (fun h => h) 100 2 ⟨⟨some [4], 90, [[4]], []⟩, 0⟩
      = .ok ([5], [5], ⟨⟨some [5], 100, [[5]], []⟩, 1⟩) ∧
    ¬ ([5] : List Nat) = [4] :=
  sendTransaction_dedup (fun _ => [5]) (fun h => h) 100 90 0 [4]
    (by decide) (by decide) (by decide)
